import Mathlib

/-!
# Greenmask: validation warnings, validate command, config workaround, subset cycles

A shallow embedding of the parts of the repository the verified properties are
about.  Go maps are association lists whose list order stands for the (unspecified)
enumeration order of `range`; their keys are pairwise distinct.  Go strings are
Lean strings, a `[]byte` obtained from a string is that same string.  Library
functions whose code is outside the repository (`md5.Sum` followed by
`hex.EncodeToString`, `json.Marshal`, the COPY row decoder, ...) are parameters.
-/

namespace Greenmask

/-! ## pkg/toolkit/validation_warning.go -/

/-- Values of Go's dynamic type `any` that can be stored as meta or parameter values. -/
inductive AnyValue where
  | null
  | bool (b : Bool)
  | int (n : Int)
  | str (s : String)
  deriving DecidableEq, Repr

/-- The text `fmt.Sprintf` puts in place of a `%s` verb for a dynamic value: a string is
copied as is, the other kinds get Go's bad-verb rendering. -/
def AnyValue.fmtS : AnyValue → String
  | .null => "%!s(<nil>)"
  | .bool b => "%!s(bool=" ++ toString b ++ ")"
  | .int n => "%!s(int=" ++ toString n ++ ")"
  | .str s => s

/-- Go error values: `io.EOF`, an error made from a text (`fmt.Errorf` without `%w`,
or an error of a library), an error wrapping another one (`fmt.Errorf("...: %w", err)`),
and a run-time panic. -/
inductive GoError where
  | eof
  | text (msg : String)
  | wrap (msg : String) (cause : GoError)
  | panic (msg : String)
  deriving DecidableEq, Repr

/-- The test `errors.Is(err, io.EOF)`, which follows the chain of wrapped errors. -/
def GoError.isEOF : GoError → Bool
  | .eof => true
  | .text _ => false
  | .wrap _ cause => cause.isEOF
  | .panic _ => false

/-- A Go `map[string]V`: list order is the enumeration order, keys are distinct. -/
abbrev GoMap (V : Type) := List (String × V)

/-- Well-formedness of a Go map: no key occurs twice. -/
def GoMap.WF {V : Type} (m : GoMap V) : Prop := (m.map Prod.fst).Nodup

instance {V : Type} (m : GoMap V) : Decidable (GoMap.WF m) := by
  unfold GoMap.WF
  infer_instance

/-- The keys in enumeration order (`for key := range m`). -/
def GoMap.keys {V : Type} (m : GoMap V) : List String := m.map Prod.fst

/-- The lookup `m[key]`, which yields the zero value for a missing key. -/
def GoMap.get {V : Type} (m : GoMap V) (key : String) (zero : V) : V :=
  (m.lookup key).getD zero

/-- The assignment `m[key] = v`. -/
def GoMap.set {V : Type} (m : GoMap V) (key : String) (v : V) : GoMap V :=
  if (m.lookup key).isNone then m ++ [(key, v)]
  else m.map (fun p => if p.1 = key then (key, v) else p)

def ErrorValidationSeverity : String := "error"
def WarningValidationSeverity : String := "warning"
def InfoValidationSeverity : String := "info"
def DebugValidationSeverity : String := "debug"

structure ValidationWarning where
  Msg : String
  Severity : String
  Meta : GoMap AnyValue
  Hash : String
  deriving DecidableEq, Repr

abbrev ValidationWarnings := List ValidationWarning

/-- `slices.ContainsFunc`. -/
def slicesContainsFunc {α : Type} (s : List α) (f : α → Bool) : Bool :=
  match s with
  | [] => false
  | x :: rest => if f x then true else slicesContainsFunc rest f

/-- `ValidationWarnings.IsFatal`. -/
def ValidationWarnings.IsFatal (re : ValidationWarnings) : Bool :=
  slicesContainsFunc re (fun warning => decide (warning.Severity = ErrorValidationSeverity))

/-- `slices.Sort` on strings.  Go orders strings by their bytes, which for UTF-8 text is
the order by code points used here. -/
def slicesSort (keys : List String) : List String :=
  keys.insertionSort (fun a b => a ≤ b)

/-- The loop of `MakeHash` over the sorted keys:
`meta = fmt.Sprintf("%s %s=%s", meta, key, re.Meta[key])`. -/
def MakeHash.metaLoop (m : GoMap AnyValue) : List String → String → String
  | [], acc => acc
  | key :: rest, acc =>
    MakeHash.metaLoop m rest (acc ++ " " ++ key ++ "=" ++ (m.get key .null).fmtS)

/-- The string `signature` built by `MakeHash`. -/
def MakeHash.signature (re : ValidationWarning) : String :=
  let keys := slicesSort (GoMap.keys re.Meta)
  let metaStr := MakeHash.metaLoop re.Meta keys ""
  "msg=" ++ re.Msg ++ " severity=" ++ re.Severity ++ " " ++ metaStr

/-- `ValidationWarning.MakeHash`; `md5hex` is `hex.EncodeToString(md5.Sum(..))`. -/
def ValidationWarning.MakeHash (md5hex : String → String) (re : ValidationWarning) :
    ValidationWarning :=
  { re with Hash := md5hex (MakeHash.signature re) }

/-- The meta maps `m1` and `m2` have the same keys and the same values except at the key
`k`, where both hold a string and the two strings differ. -/
def MetaDiffersAt (m1 m2 : GoMap AnyValue) (k : String) : Prop :=
  (∀ k2, k2 ∈ GoMap.keys m1 ↔ k2 ∈ GoMap.keys m2) ∧ k ∈ GoMap.keys m1 ∧
  (∀ k2, k2 ≠ k → m1.get k2 .null = m2.get k2 .null) ∧
  ∃ s1 s2, m1.get k .null = .str s1 ∧ m2.get k .null = .str s2 ∧ s1 ≠ s2

/-- The warnings `w1` and `w2` differ in exactly one of: the Msg, the Severity, the
string value of one meta key. -/
def SingleFieldChange (w1 w2 : ValidationWarning) : Prop :=
  (w1.Msg ≠ w2.Msg ∧ w1.Severity = w2.Severity ∧ ∀ p, p ∈ w1.Meta ↔ p ∈ w2.Meta) ∨
  (w1.Msg = w2.Msg ∧ w1.Severity ≠ w2.Severity ∧ ∀ p, p ∈ w1.Meta ↔ p ∈ w2.Meta) ∨
  (w1.Msg = w2.Msg ∧ w1.Severity = w2.Severity ∧ ∃ k, MetaDiffersAt w1.Meta w2.Meta k)

/-- `slices.Index`: the first position of `v`, or -1. -/
def slicesIndex (s : List String) (v : String) : Int :=
  if s.indexOf v < s.length then (s.indexOf v : Int) else -1

/-- A line written to the logger. -/
inductive LogLine where
  | debug (hash : String)
  | error (w : ValidationWarning)
  | warn (w : ValidationWarning)
  deriving DecidableEq, Repr

/-- What a run of the printing loop leaves behind: the warnings (hashes are set in
place on the ones that were visited), the log and the returned error. -/
structure PrintOutcome where
  warns : List ValidationWarning
  log : List LogLine
  err : Option GoError
  deriving DecidableEq, Repr

/-- The loop shared by `toolkit.PrintValidationWarnings` and
`Validate.printValidationWarnings`; `seen` are the warnings already visited. -/
def printLoop (md5hex : String → String) (resolvedWarnings : List String) (printAll : Bool) :
    List ValidationWarning → List ValidationWarning → List LogLine → PrintOutcome
  | [], seen, log => ⟨seen, log, none⟩
  | w0 :: rest, seen, log =>
    let w := w0.MakeHash md5hex
    if slicesIndex resolvedWarnings w.Hash ≠ -1 then
      let log1 := log ++ [LogLine.debug w.Hash]
      if w.Severity = ErrorValidationSeverity then
        ⟨seen ++ w :: rest, log1,
          some (.text ("warning with hash " ++ w.Hash ++
            " cannot be excluded because it is an error"))⟩
      else
        printLoop md5hex resolvedWarnings printAll rest (seen ++ [w]) log1
    else if w.Severity = ErrorValidationSeverity then
      printLoop md5hex resolvedWarnings printAll rest (seen ++ [w]) (log ++ [LogLine.error w])
    else if printAll then
      printLoop md5hex resolvedWarnings printAll rest (seen ++ [w]) (log ++ [LogLine.warn w])
    else
      printLoop md5hex resolvedWarnings printAll rest (seen ++ [w]) log

/-- `toolkit.PrintValidationWarnings`. -/
def PrintValidationWarnings (md5hex : String → String) (warns : ValidationWarnings)
    (resolvedWarnings : List String) (printAll : Bool) : PrintOutcome :=
  printLoop md5hex resolvedWarnings printAll warns [] []

/-- The warnings written at warn or error level, in log order. -/
def emittedWarnings : List LogLine → List ValidationWarning
  | [] => []
  | LogLine.debug _ :: rest => emittedWarnings rest
  | LogLine.error w :: rest => w :: emittedWarnings rest
  | LogLine.warn w :: rest => w :: emittedWarnings rest

/-! ## internal/domains (types as the code under verification uses them) -/

/-- `toolkit.ParamsValue`, a `[]byte`. -/
abbrev ParamsValue := String

/-- `domains.TransformerConfig`: `Params` holds the encoded values, `MetadataParams`
the decoded ones.  Tables hold their transformers by pointer. -/
structure TransformerConfig where
  Name : String
  Params : GoMap ParamsValue
  MetadataParams : GoMap AnyValue
  deriving DecidableEq, Repr

/-- `domains.Table`. -/
structure DomainTable where
  Schema : String
  Name : String
  Transformers : List TransformerConfig
  deriving DecidableEq, Repr

/-- `domains.Validate`, the `validate` section of the config. -/
structure ValidateConfig where
  Tables : List String
  Data : Bool
  RowsLimit : Nat
  Diff : Bool
  OnlyTransformed : Bool
  Format : String
  TableFormat : String
  Warnings : Bool
  ResolvedWarnings : List String
  deriving DecidableEq, Repr

/-- `domains.Config`; `Transformation` is `cfg.Dump.Transformation`. -/
structure Config where
  Transformation : List DomainTable
  Validate : ValidateConfig
  deriving DecidableEq, Repr

/-- A transformer of `domains.DummyConfig`: only the decoded `params`. -/
structure DummyTransformer where
  Params : GoMap AnyValue
  deriving DecidableEq, Repr

structure DummyTable where
  Transformers : List DummyTransformer
  deriving DecidableEq, Repr

/-- `domains.DummyConfig`; `Transformation` is `tmpCfg.Dump.Transformation`. -/
structure DummyConfig where
  Transformation : List DummyTable
  deriving DecidableEq, Repr

/-! ## internal/utils/config/viper_workaround.go -/

/-- The innermost loop of `setTransformerParams` over `tmpTransformer.Params`; `jsonMarshal`
is `json.Marshal`. -/
def setTransformerParams.paramsLoop (jsonMarshal : AnyValue → Except GoError ParamsValue) :
    List (String × AnyValue) → GoMap ParamsValue → Except GoError (GoMap ParamsValue)
  | [], paramsMap => .ok paramsMap
  | (paramName, decodedValue) :: rest, paramsMap =>
    match decodedValue with
    | .str v => setTransformerParams.paramsLoop jsonMarshal rest (paramsMap.set paramName v)
    | v =>
      match jsonMarshal v with
      | .error err => .error (.wrap "cannot convert object to json bytes" err)
      | .ok encodedVal =>
        setTransformerParams.paramsLoop jsonMarshal rest (paramsMap.set paramName encodedVal)

/-- The config after the two assignments `transformer.Params = paramsMap` and
`transformer.MetadataParams = params`, made through the pointer to the transformer
`transformationIdx` of the table `tableIdx`, which are `transformer` and `table`. -/
def Config.assignParams (cfg : Config) (tableIdx transformationIdx : Nat) (table : DomainTable)
    (transformer : TransformerConfig) (paramsMap : GoMap ParamsValue)
    (params : GoMap AnyValue) : Config :=
  let transformer1 : TransformerConfig :=
    { transformer with Params := paramsMap, MetadataParams := params }
  let table1 : DomainTable :=
    { table with Transformers := table.Transformers.set transformationIdx transformer1 }
  { cfg with Transformation := cfg.Transformation.set tableIdx table1 }

/-- The loop of `setTransformerParams` over the transformers of table `tableIdx`.  It
returns the config as it stands when the loop stops, and the error if one stopped it. -/
def setTransformerParams.transformersLoop (jsonMarshal : AnyValue → Except GoError ParamsValue)
    (tableIdx : Nat) : List DummyTransformer → Nat → Config → Config × Option GoError
  | [], _, cfg => (cfg, none)
  | tmpTransformer :: rest, transformationIdx, cfg =>
    match cfg.Transformation[tableIdx]? with
    | none => (cfg, some (.panic "index out of range"))
    | some table =>
      match table.Transformers[transformationIdx]? with
      | none => (cfg, some (.panic "index out of range"))
      | some transformer =>
        match setTransformerParams.paramsLoop jsonMarshal tmpTransformer.Params [] with
        | .error err => (cfg, some err)
        | .ok paramsMap =>
          setTransformerParams.transformersLoop jsonMarshal tableIdx rest (transformationIdx + 1)
            (cfg.assignParams tableIdx transformationIdx table transformer paramsMap
              tmpTransformer.Params)

/-- The loop of `setTransformerParams` over the tables. -/
def setTransformerParams.tablesLoop (jsonMarshal : AnyValue → Except GoError ParamsValue) :
    List DummyTable → Nat → Config → Config × Option GoError
  | [], _, cfg => (cfg, none)
  | tableObj :: rest, tableIdx, cfg =>
    match setTransformerParams.transformersLoop jsonMarshal tableIdx tableObj.Transformers 0 cfg with
    | (cfg1, some err) => (cfg1, some err)
    | (cfg1, none) => setTransformerParams.tablesLoop jsonMarshal rest (tableIdx + 1) cfg1

/-- `setTransformerParams`: the config after the call and the returned error. -/
def setTransformerParams (jsonMarshal : AnyValue → Except GoError ParamsValue)
    (tmpCfg : DummyConfig) (cfg : Config) : Config × Option GoError :=
  setTransformerParams.tablesLoop jsonMarshal tmpCfg.Transformation 0 cfg

/-- The value `setTransformerParams` stores for a decoded value: the bytes of a string,
the JSON encoding of anything else. -/
def encodesTo (jsonMarshal : AnyValue → Except GoError ParamsValue) (decoded : AnyValue)
    (encoded : ParamsValue) : Prop :=
  match decoded with
  | .str v => encoded = v
  | v => jsonMarshal v = .ok encoded

/-- `tmpCfg` and `cfg` have the same tables and transformers shape. -/
def SameShape (tmpCfg : DummyConfig) (cfg : Config) : Prop :=
  tmpCfg.Transformation.length = cfg.Transformation.length ∧
  ∀ (i : Nat) (tmpTable : DummyTable) (table : DomainTable),
    tmpCfg.Transformation[i]? = some tmpTable →
    cfg.Transformation[i]? = some table →
    tmpTable.Transformers.length = table.Transformers.length

/-- The transformer `tr` holds the parameters `tmpParams` as `setTransformerParams` stores
them: `MetadataParams` is `tmpParams`, and `Params` is a map with exactly the keys of
`tmpParams`, each bound to the encoding of its value. -/
def ParamsStored (jsonMarshal : AnyValue → Except GoError ParamsValue)
    (tmpParams : GoMap AnyValue) (tr : TransformerConfig) : Prop :=
  tr.MetadataParams = tmpParams ∧ GoMap.WF tr.Params ∧
  (∀ k, k ∈ GoMap.keys tr.Params ↔ k ∈ GoMap.keys tmpParams) ∧
  ∀ k v, (k, v) ∈ tmpParams → encodesTo jsonMarshal v (tr.Params.get k "")

/-- Every params map of `tmpCfg` is a well-formed Go map. -/
def DummyConfig.WF (tmpCfg : DummyConfig) : Prop :=
  ∀ tmpTable ∈ tmpCfg.Transformation, ∀ tmpTransformer ∈ tmpTable.Transformers,
    GoMap.WF tmpTransformer.Params

/-! ## internal/db/postgres/cmd/validate.go -/

/-- `entries.Table`, with the fields the validate command reads or writes. -/
structure EntriesTable where
  DumpId : Nat
  Columns : List String
  Transformers : List String
  ValidateLimitedRecords : Nat
  deriving DecidableEq, Repr

/-- `entries.Entry`: a table, or an object of another kind (sequence, large objects). -/
inductive Entry where
  | table (t : EntriesTable)
  | other (kind : String)
  deriving DecidableEq, Repr

/-- The runtime context of a dump, as far as validate uses it. -/
structure RuntimeContext where
  Warnings : ValidationWarnings
  DataSectionObjects : List Entry
  deriving DecidableEq, Repr

/-- Modelled from the spec: `RuntimeContext.IsFatal` is not among the sources; "a batch
is fatal iff any warning has severity=error", that is `ValidationWarnings.IsFatal` over
the warnings of the context. -/
def RuntimeContext.IsFatal (ctx : RuntimeContext) : Bool :=
  ValidationWarnings.IsFatal ctx.Warnings

/-- `Validate.printValidationWarnings`: the loop over `v.context.Warnings`, then the
check of `v.context.IsFatal()`. The warnings of the context are hashed in place. -/
def Validate.printValidationWarnings (md5hex : String → String) (config : Config)
    (context : RuntimeContext) : PrintOutcome :=
  let r := printLoop md5hex config.Validate.ResolvedWarnings config.Validate.Warnings
    context.Warnings [] []
  match r.err with
  | some err => ⟨r.warns, r.log, some err⟩
  | none =>
    if RuntimeContext.IsFatal { context with Warnings := r.warns } then
      ⟨r.warns, r.log, some (.text "fatal validation error")⟩
    else ⟨r.warns, r.log, none⟩

/-- The loop of `Validate.dumpTables`.  `objects` collects the visited objects as the
loop leaves them (tables are updated through their pointer), `tablesWithTransformers`
is the slice being built. -/
def Validate.dumpTables.loop (rowsLimit : Nat) :
    List Entry → List Entry → List Entry → List Entry × List Entry
  | [], objects, tablesWithTransformers => (objects, tablesWithTransformers)
  | item :: rest, objects, tablesWithTransformers =>
    match item with
    | .table t =>
      if t.Transformers.length > 0 then
        let t1 : EntriesTable := { t with ValidateLimitedRecords := rowsLimit }
        Validate.dumpTables.loop rowsLimit rest (objects ++ [.table t1])
          (tablesWithTransformers ++ [.table t1])
      else
        Validate.dumpTables.loop rowsLimit rest (objects ++ [item]) tablesWithTransformers
    | .other _ =>
      Validate.dumpTables.loop rowsLimit rest (objects ++ [item]) tablesWithTransformers

/-- What `Dump.dataDump` (outside the sources) leaves behind: its error and the dump ids
of the data entries it wrote (`v.dataEntries`). -/
structure DataDumpResult where
  err : Option GoError
  dataEntries : List Nat
  deriving DecidableEq, Repr

/-- The state after `Validate.dumpTables`. -/
structure DumpTablesOutcome where
  /-- the objects of the data section before the call, as the call leaves them -/
  objects : List Entry
  /-- `v.context.DataSectionObjects` after the call: the list handed to `dataDump` -/
  dataSectionObjects : List Entry
  dataEntries : List Nat
  err : Option GoError
  deriving DecidableEq, Repr

/-- `Validate.dumpTables`; `dataDump` is `Dump.dataDump` run on the data section objects
it finds in the context. -/
def Validate.dumpTables (dataDump : List Entry → DataDumpResult) (config : Config)
    (context : RuntimeContext) : DumpTablesOutcome :=
  let r := Validate.dumpTables.loop config.Validate.RowsLimit context.DataSectionObjects [] []
  let d := dataDump r.2
  match d.err with
  | some err => ⟨r.1, r.2, d.dataEntries, some (.wrap "data stage dumping error" err)⟩
  | none => ⟨r.1, r.2, d.dataEntries, none⟩

/-- The condition of `dumpTables` on an object: a table with at least one transformer. -/
def Entry.isTableWithTransformers : Entry → Bool
  | .table t => decide (t.Transformers.length > 0)
  | .other _ => false

/-- The object with `ValidateLimitedRecords` set to `rowsLimit` (tables only). -/
def Entry.withLimit (rowsLimit : Nat) : Entry → Entry
  | .table t => .table { t with ValidateLimitedRecords := rowsLimit }
  | .other kind => .other kind

/-- A `bufio.Reader` over a table stream: the lines still to be read and the error that
ends the stream, `io.EOF` when `fault` is none. -/
structure Reader where
  lines : List String
  fault : Option GoError
  deriving DecidableEq, Repr

/-- Modelled from the spec: `reader.ReadLine` is not among the sources; it returns the
next line of the stream without its line feed, or the error that ends the stream. -/
def ReadLine (r : Reader) : Except GoError String × Reader :=
  match r.lines with
  | line :: rest => (.ok line, { r with lines := rest })
  | [] => (.error (r.fault.getD .eof), r)

/-- Modelled from the spec: `validate_utils.LineIsEndOfData` is not among the sources;
"the end-of-data sentinel is a line equal to `\.`". -/
def LineIsEndOfData (line : String) : Bool :=
  decide (line = "\\.")

/-- The operations on rows and documents that validate takes from `pgcopy` and
`validate_utils`: `NewRow(n)` followed by `Decode(line)`, the two document constructors,
`Documenter.Append` and `Documenter.Print`. -/
structure DocOps (Row Doc : Type) where
  decode : Nat → String → Except GoError Row
  newJsonDocument : EntriesTable → Bool → Bool → Doc
  newTextDocument : EntriesTable → Bool → Bool → String → Doc
  append : Doc → Row → Row → Except GoError Doc
  print : Doc → Option GoError

def JsonFormat : String := "json"
def TextFormat : String := "text"

/-- `Validate.getDocument`; an unknown format panics. -/
def Validate.getDocument {Row Doc : Type} (ops : DocOps Row Doc) (config : Config)
    (table : EntriesTable) : Except GoError Doc :=
  if config.Validate.Format = JsonFormat then
    .ok (ops.newJsonDocument table config.Validate.Diff config.Validate.OnlyTransformed)
  else if config.Validate.Format = TextFormat then
    .ok (ops.newTextDocument table config.Validate.Diff config.Validate.OnlyTransformed
      config.Validate.TableFormat)
  else .error (.panic ("unknown format " ++ config.Validate.Format))

/-- `Validate.readRecords`: the result and the reader after the call. -/
def Validate.readRecords {Row Doc : Type} (ops : DocOps Row Doc) (r : Reader)
    (t : EntriesTable) : Except GoError (Row × Row) × Reader :=
  match ReadLine r with
  | (.error err, r1) =>
    if err.isEOF then (.error err, r1)
    else (.error (.wrap "unable to read line" err), r1)
  | (.ok originalLine, r1) =>
    if LineIsEndOfData originalLine then (.error .eof, r1)
    else
      match ReadLine r1 with
      | (.error err, r2) => (.error (.wrap "unable to read line" err), r2)
      | (.ok transformedLine, r2) =>
        match ops.decode t.Columns.length originalLine with
        | .error err => (.error (.wrap "error decoding copy line" err), r2)
        | .ok originalRow =>
          match ops.decode t.Columns.length transformedLine with
          | .error err => (.error (.wrap "error decoding copy line" err), r2)
          | .ok transformedRow => (.ok (originalRow, transformedRow), r2)

/-- The `for` loop of `Validate.createDocument`.  Every turn that goes on reads two
lines, so a fuel above the number of lines is never used up. -/
def Validate.createDocument.loop {Row Doc : Type} (ops : DocOps Row Doc) (t : EntriesTable) :
    Nat → Reader → Doc → Nat → Except GoError Doc
  | 0, _, _, _ => .error (.text "unreachable")
  | fuel + 1, r, doc, line =>
    match Validate.readRecords ops r t with
    | (.error err, _) => if err.isEOF then .ok doc else .error err
    | (.ok (original, transformed), r1) =>
      match ops.append doc original transformed with
      | .error err =>
        .error (.wrap ("unable to append line " ++ toString line ++ " to document") err)
      | .ok doc1 => Validate.createDocument.loop ops t fuel r1 doc1 (line + 1)

/-- An object of the storage as `gzip.NewReader` sees it: the line stream it
decompresses to, or the error of `gzip.NewReader`. -/
abbrev StoredObject := Except GoError Reader

/-- `Validate.getReader`; `getObject` is `v.st.GetObject`. -/
def Validate.getReader (getObject : String → Except GoError StoredObject)
    (table : EntriesTable) : Except GoError Reader :=
  match getObject (toString table.DumpId ++ ".dat.gz") with
  | .error err => .error (.wrap "unable to get object from storage" err)
  | .ok tableData =>
    match tableData with
    | .error err => .error (.wrap "cannot create gzip reader" err)
    | .ok gz => .ok gz

/-- `Validate.createDocument`. -/
def Validate.createDocument {Row Doc : Type} (ops : DocOps Row Doc) (config : Config)
    (getObject : String → Except GoError StoredObject) (t : EntriesTable) :
    Except GoError Doc :=
  match Validate.getDocument ops config t with
  | .error err => .error err
  | .ok doc =>
    match Validate.getReader getObject t with
    | .error err => .error err
    | .ok r => Validate.createDocument.loop ops t (r.lines.length + 1) r doc 0

/-- The documents appended pair by pair: `doc.Append` over the pairs, in order. -/
def appendAll {Row Doc : Type} (ops : DocOps Row Doc) : Doc → List (Row × Row) → Except GoError Doc
  | doc, [] => .ok doc
  | doc, (original, transformed) :: rest =>
    match ops.append doc original transformed with
    | .error err => .error err
    | .ok doc1 => appendAll ops doc1 rest

/-- The lines of a stream taken two by two. -/
def linePairs : List String → List (String × String)
  | a :: b :: rest => (a, b) :: linePairs rest
  | _ => []

/-- The lookup at the head of the loop of `Validate.print`: `slices.IndexFunc` with the
type assertion `entry.(*entries.Table)`, then `DataSectionObjects[idx].(*entries.Table)`. -/
def Validate.print.findTable (dumpId : Nat) : List Entry → Except GoError EntriesTable
  | [] => .error (.panic "index out of range [-1]")
  | .table t :: rest => if t.DumpId = dumpId then .ok t else Validate.print.findTable dumpId rest
  | .other _ :: _ => .error (.panic "interface conversion: entries.Entry is not *entries.Table")

/-- `Validate.print`, over the dump ids of `v.dataEntries`. -/
def Validate.print {Row Doc : Type} (ops : DocOps Row Doc) (config : Config)
    (getObject : String → Except GoError StoredObject) (dataSectionObjects : List Entry) :
    List Nat → Option GoError
  | [] => none
  | e :: rest =>
    match Validate.print.findTable e dataSectionObjects with
    | .error err => some err
    | .ok t =>
      match Validate.createDocument ops config getObject t with
      | .error err => some (.wrap "unable to create validation document" err)
      | .ok doc =>
        match ops.print doc with
        | some err => some (.wrap "unable to print validation document" err)
        | none => Validate.print ops config getObject dataSectionObjects rest

/-- `strings.Split(s, sep)` for a separator of one character, on the characters of `s`;
`cur` holds the characters of the part being read, last one first. -/
def stringsSplit.go (sep : Char) : List Char → List Char → List String
  | [], cur => [String.mk cur.reverse]
  | c :: rest, cur =>
    if c = sep then String.mk cur.reverse :: stringsSplit.go sep rest []
    else stringsSplit.go sep rest (c :: cur)

def stringsSplit (s : String) (sep : Char) : List String :=
  stringsSplit.go sep s.data []

/-- `parseTableName`; the pair is `(tableName, schemaName)`, in the order of the results
of the Go function. -/
def parseTableName (name : String) : Except GoError (String × String) :=
  let parts := stringsSplit name '.'
  if parts.length > 2 then
    .error (.text ("wrong \"validate_table\" format \"" ++ name ++ "\": value has " ++
      toString parts.length ++ " coma symbols (.)"))
  else if parts.length = 2 then
    .ok (parts.getD 1 "", parts.getD 0 "")
  else
    .ok (parts.getD 0 "", "")

/-- The loop of `findTableBySchemaAndName`; `foundTable` is nil (none) or a table. -/
def findTableBySchemaAndName.loop (schemaName tableName : String) :
    List DomainTable → Option DomainTable → Except GoError (Option DomainTable)
  | [], foundTable => .ok foundTable
  | t :: rest, foundTable =>
    if t.Schema = schemaName ∧ t.Name = tableName then .ok (some t)
    else if schemaName = "" ∧ t.Name = tableName then
      if foundTable.isSome then
        .error (.text ("wrong \"validate_table\" value: unable uniqually identify table \"" ++
          tableName ++ "\": sepcify schema name"))
      else findTableBySchemaAndName.loop schemaName tableName rest (some t)
    else findTableBySchemaAndName.loop schemaName tableName rest foundTable

/-- `findTableBySchemaAndName`. -/
def findTableBySchemaAndName (Transformations : List DomainTable)
    (schemaName tableName : String) : Except GoError DomainTable :=
  match findTableBySchemaAndName.loop schemaName tableName Transformations none with
  | .error err => .error err
  | .ok none =>
    let errMsg :=
      if schemaName ≠ "" ∧ tableName ≠ "" then
        "table " ++ schemaName ++ "." ++ tableName ++ " is not found in transformation config"
      else "table " ++ tableName ++ " is not found in transformation config"
    .error (.text ("unable to find table from \"validate_table\" parameter: " ++ errMsg))
  | .ok (some foundTable) => .ok foundTable

/-- The loop of `Validate.getTablesToValidate`.  The call site binds the first result of
`parseTableName` to `schemaName` and the second to `tableName`. -/
def Validate.getTablesToValidate.loop (config : Config) :
    List String → List DomainTable → Except GoError (List DomainTable)
  | [], tablesToValidate => .ok tablesToValidate
  | tv :: rest, tablesToValidate =>
    match parseTableName tv with
    | .error err => .error err
    | .ok (schemaName, tableName) =>
      match findTableBySchemaAndName config.Transformation schemaName tableName with
      | .error err => .error err
      | .ok foundTable =>
        Validate.getTablesToValidate.loop config rest (tablesToValidate ++ [foundTable])

/-- `Validate.getTablesToValidate`. -/
def Validate.getTablesToValidate (config : Config) : Except GoError (List DomainTable) :=
  match Validate.getTablesToValidate.loop config config.Validate.Tables [] with
  | .error err => .error err
  | .ok tablesToValidate =>
    if tablesToValidate.length = 0 then .ok config.Transformation
    else .ok tablesToValidate

/-- The steps of `Validate.Run`; the step `printValidationWarnings` is recorded with the
error it returned. -/
inductive Call where
  | bootstrapCustomTransformers
  | getPgDSN
  | connect
  | startMainTx
  | gatherPgFacts
  | getTablesToValidate
  | newRuntimeContext
  | printValidationWarnings (returned : Option GoError)
  | dumpTables
  | print
  | txRollback
  | connClose
  | removeTmpDir
  deriving DecidableEq, Repr

/-- The collaborators of `Validate.Run` whose code is outside the sources, each given by
what it returns. -/
structure RunEnv where
  bootstrapCustomTransformers : Option GoError
  getPgDSN : Option GoError
  connect : Option GoError
  startMainTx : Option GoError
  gatherPgFacts : Option GoError
  newRuntimeContext : List DomainTable → Except GoError RuntimeContext
  dataDump : List Entry → DataDumpResult
  getObject : String → Except GoError StoredObject

/-- What a run leaves behind: the steps taken, in order, and the returned error. -/
structure RunOutcome where
  calls : List Call
  err : Option GoError
  deriving DecidableEq, Repr

/-- The part of `Validate.Run` that runs inside the main transaction, from
`gatherPgFacts` on. -/
def Validate.Run.inTx {Row Doc : Type} (ops : DocOps Row Doc) (md5hex : String → String)
    (env : RunEnv) (config : Config) : RunOutcome :=
  match env.gatherPgFacts with
  | some err => ⟨[.gatherPgFacts], some (.wrap "error gathering facts" err)⟩
  | none =>
    match Validate.getTablesToValidate config with
    | .error err => ⟨[.gatherPgFacts, .getTablesToValidate], some err⟩
    | .ok tablesToValidate =>
      let config1 : Config := { config with Transformation := tablesToValidate }
      match env.newRuntimeContext config1.Transformation with
      | .error err =>
        ⟨[.gatherPgFacts, .getTablesToValidate, .newRuntimeContext],
          some (.wrap "unable to build runtime context" err)⟩
      | .ok context =>
        let warned := Validate.printValidationWarnings md5hex config1 context
        match warned.err with
        | some err =>
          ⟨[.gatherPgFacts, .getTablesToValidate, .newRuntimeContext,
            .printValidationWarnings (some err)], some err⟩
        | none =>
          if ¬ config1.Validate.Data then
            ⟨[.gatherPgFacts, .getTablesToValidate, .newRuntimeContext,
              .printValidationWarnings none], none⟩
          else
            let dumped := Validate.dumpTables env.dataDump config1
              { context with Warnings := warned.warns }
            match dumped.err with
            | some err =>
              ⟨[.gatherPgFacts, .getTablesToValidate, .newRuntimeContext,
                .printValidationWarnings none, .dumpTables], some err⟩
            | none =>
              ⟨[.gatherPgFacts, .getTablesToValidate, .newRuntimeContext,
                .printValidationWarnings none, .dumpTables, .print],
                Validate.print ops config1 env.getObject dumped.dataSectionObjects
                  dumped.dataEntries⟩

/-- `Validate.Run`.  The deferred calls run last, latest first: the rollback of the main
transaction, the close of the connection, the removal of the temporary directory. -/
def Validate.Run {Row Doc : Type} (ops : DocOps Row Doc) (md5hex : String → String)
    (env : RunEnv) (config : Config) : RunOutcome :=
  match env.bootstrapCustomTransformers with
  | some err =>
    ⟨[.bootstrapCustomTransformers, .removeTmpDir],
      some (.wrap "error bootstraping custom transformers" err)⟩
  | none =>
    match env.getPgDSN with
    | some err =>
      ⟨[.bootstrapCustomTransformers, .getPgDSN, .removeTmpDir],
        some (.wrap "cannot build connection string" err)⟩
    | none =>
      match env.connect with
      | some err => ⟨[.bootstrapCustomTransformers, .getPgDSN, .connect, .removeTmpDir], some err⟩
      | none =>
        match env.startMainTx with
        | some err =>
          ⟨[.bootstrapCustomTransformers, .getPgDSN, .connect, .startMainTx, .connClose,
            .removeTmpDir], some (.wrap "cannot prepare backup transaction" err)⟩
        | none =>
          let r := Validate.Run.inTx ops md5hex env config
          ⟨[.bootstrapCustomTransformers, .getPgDSN, .connect, .startMainTx] ++ r.calls ++
            [.txRollback, .connClose, .removeTmpDir], r.err⟩

/-- The lines of a stream made of pairs of lines (original, transformed). -/
def pairLines : List (String × String) → List String
  | [] => []
  | (original, transformed) :: rest => original :: transformed :: pairLines rest

/-- The rows `rows` are the decodings of the pairs of lines `pairs`, pair by pair. -/
def DecodesTo {Row Doc : Type} (ops : DocOps Row Doc) (t : EntriesTable) :
    List (String × String) → List (Row × Row) → Prop
  | [], [] => True
  | (l1, l2) :: pairs, (r1, r2) :: rows =>
    ops.decode t.Columns.length l1 = .ok r1 ∧ ops.decode t.Columns.length l2 = .ok r2 ∧
      DecodesTo ops t pairs rows
  | _, _ => False

/-! ## internal/db/postgres/subset (`component.go` is not among the sources; the types
are the ones `component_test.go` builds) -/

/-- `subset.Edge`: its `id`, the index `idx` of the table it leads to, and the indexes
`from.idx` and `to.idx` of its two table links. -/
structure Edge where
  id : Nat
  idx : Nat
  fromIdx : Nat
  toIdx : Nat
  deriving DecidableEq, Repr

/-- `Component.componentGraph`, a `map[int][]*Edge`: the edges that leave each vertex. -/
abbrev ComponentGraph := List (Nat × List Edge)

/-- `subset.Component`, with the fields `findCycles` works on. -/
structure Component where
  componentGraph : ComponentGraph
  cycles : List (List Edge)
  cyclesIdents : List (List Nat)
  deriving DecidableEq, Repr

/-- The lookup `componentGraph[v]`. -/
def ComponentGraph.outEdges (g : ComponentGraph) (v : Nat) : List Edge :=
  (g.lookup v).getD []

/-- All the edges of the graph. -/
def ComponentGraph.allEdges : ComponentGraph → List Edge
  | [] => []
  | (_, es) :: rest => es ++ ComponentGraph.allEdges rest

/-- The graph is a map (no vertex is listed twice), every edge is listed under the vertex
it leaves, its `idx` is the index of its `to` link, and edge ids are distinct. -/
def ComponentGraph.WF (g : ComponentGraph) : Prop :=
  (g.map Prod.fst).Nodup ∧
  (∀ p ∈ g, ∀ e ∈ p.2, e.fromIdx = p.1 ∧ e.idx = e.toIdx) ∧
  (g.allEdges.map Edge.id).Nodup

instance (g : ComponentGraph) : Decidable (ComponentGraph.WF g) := by
  unfold ComponentGraph.WF
  infer_instance

/-- Modelled from the spec: the cycle identifier of `cyclesIdents`, "key = sorted edge-id
multiset": the edge ids of the cycle, sorted. -/
def getCycleIdent (cycle : List Edge) : List Nat :=
  (cycle.map Edge.id).insertionSort (fun a b => a ≤ b)

/-- Modelled from the spec: the search for the simple cycles through `start` (spec 4.I,
step 2).  It extends the current path, whose edges are `path` and whose last vertex is
`v`, by every edge that leaves `v`: an edge back to `start` closes a cycle, an edge to
another vertex of the path is not followed.  The depth of the search is bounded by
`fuel`. -/
def findCycles.dfs (g : ComponentGraph) (start : Nat) : Nat → Nat → List Edge → List (List Edge)
  | 0, _, _ => []
  | fuel + 1, v, path =>
    (g.outEdges v).flatMap (fun e =>
      if e.idx = start then [path ++ [e]]
      else if e.idx ∈ path.map Edge.idx then []
      else findCycles.dfs g start fuel e.idx (path ++ [e]))

/-- Modelled from the spec: a found cycle is kept unless its identifier is already in
`cyclesIdents` ("deduplicate on a canonical identifier stored in cyclesIdents"). -/
def Component.addCycle (c : Component) (cycle : List Edge) : Component :=
  if getCycleIdent cycle ∈ c.cyclesIdents then c
  else { c with cycles := c.cycles ++ [cycle],
                cyclesIdents := c.cyclesIdents ++ [getCycleIdent cycle] }

/-- The cycles the search finds from every vertex of the graph, in the order of the
vertices. -/
def findCycles.found (g : ComponentGraph) : List Nat → List (List Edge)
  | [] => []
  | v :: rest => findCycles.dfs g v g.allEdges.length v [] ++ findCycles.found g rest

/-- Modelled from the spec: `Component.findCycles` is not among the sources.  Spec 4.I,
step 2: "find all simple cycles via Johnson's algorithm; deduplicate on a canonical
rotation identifier stored in cyclesIdents.  Parallel edges produce distinct cycles."
The cycles are enumerated by the plain depth-first search from every vertex of the
graph (the blocking lists of Johnson's algorithm save work, they do not change which
cycles are found), so a cycle is met once from each of its vertices and the identifiers
keep one copy.  No simple cycle has more edges than the graph, which bounds the depth
of the search. -/
def Component.findCycles (c : Component) : Component :=
  (findCycles.found c.componentGraph (c.componentGraph.map Prod.fst)).foldl
    Component.addCycle c

/-- The edges `p` lead from `u` to `w`, each leaving the vertex the one before enters. -/
def IsPath : Nat → List Edge → Nat → Prop
  | u, [], w => u = w
  | u, e :: rest, w => e.fromIdx = u ∧ IsPath e.toIdx rest w

/-- A simple circuit of the graph: a non-empty closed path of edges of the graph that
enters no vertex twice. -/
def IsSimpleCircuit (g : ComponentGraph) (c : List Edge) : Prop :=
  c ≠ [] ∧ (∀ e ∈ c, e ∈ g.allEdges) ∧ (∃ s, IsPath s c s) ∧ (c.map Edge.toIdx).Nodup

/-- The edges `rest` close a cycle through `start` from the vertex `v`, entering neither
a vertex of `visited` nor a vertex twice: what the search follows. -/
def Closing (g : ComponentGraph) (start : Nat) : List Nat → Nat → List Edge → Prop
  | _, _, [] => False
  | visited, v, e :: rest =>
    e ∈ g.outEdges v ∧
    ((rest = [] ∧ e.idx = start) ∨
     (rest ≠ [] ∧ e.idx ≠ start ∧ e.idx ∉ visited ∧
      Closing g start (visited ++ [e.idx]) e.idx rest))

/-- The graph of `TestComponent_findCycles`. -/
def testGraph1 : ComponentGraph :=
  [(1, [⟨1, 2, 1, 2⟩]),
   (2, [⟨2, 3, 2, 3⟩]),
   (3, [⟨3, 1, 3, 1⟩, ⟨4, 1, 3, 1⟩, ⟨5, 4, 3, 4⟩]),
   (4, [⟨6, 3, 4, 3⟩, ⟨7, 1, 4, 1⟩])]

/-- The graph of `TestComponent_findCycles_pt2`. -/
def testGraph2 : ComponentGraph :=
  [(1, [⟨1, 2, 1, 2⟩]),
   (2, [⟨2, 1, 2, 1⟩, ⟨3, 1, 2, 1⟩])]

/-! ## internal/db/postgres/restorers/sequence.go -/

/-- `toc.Entry`, with the fields the sequence restorer reads; a nil pointer is `none`. -/
structure TocEntry where
  Namespace : Option String
  Tag : Option String
  Defn : Option String
  deriving DecidableEq, Repr

/-- The connection and its transaction, each operation given by the error it returns:
`conn.Begin`, `tx.Exec` on a statement, `tx.Rollback`, `tx.Commit`. -/
structure ConnOps where
  begin : Option GoError
  exec : String → Option GoError
  rollback : Option GoError
  commit : Option GoError

/-- The calls a restorer makes on the connection and on the transaction. -/
inductive TxCall where
  | begin
  | exec (sql : String)
  | rollback
  | commit
  deriving DecidableEq, Repr

/-- What `Execute` leaves behind: the calls made, in order, and the returned error. -/
structure ExecuteOutcome where
  calls : List TxCall
  err : Option GoError
  deriving DecidableEq, Repr

/-- `SequenceRestorer.DebugInfo`; dereferencing a nil `Namespace` or `Tag` panics. -/
def SequenceRestorer.DebugInfo (entry : TocEntry) : Except GoError String :=
  match entry.Namespace, entry.Tag with
  | some ns, some tag => .ok ("sequence " ++ ns ++ "." ++ tag)
  | _, _ => .error (.panic "invalid memory address or nil pointer dereference")

/-- `SequenceRestorer.execute`, on the open transaction. -/
def SequenceRestorer.execute (ops : ConnOps) (entry : TocEntry) : ExecuteOutcome :=
  match entry.Defn with
  | none => ⟨[], some (.text "received nil pointer intead of sequence")⟩
  | some defn =>
    match ops.exec defn with
    | some err => ⟨[.exec defn], some (.wrap "unable to apply sequence set val" err)⟩
    | none => ⟨[.exec defn], none⟩

/-- `SequenceRestorer.Execute`. -/
def SequenceRestorer.Execute (ops : ConnOps) (entry : TocEntry) : ExecuteOutcome :=
  match ops.begin with
  | some err =>
    match SequenceRestorer.DebugInfo entry with
    | .error p => ⟨[.begin], some p⟩
    | .ok info =>
      ⟨[.begin], some (.wrap ("cannot start transaction (restoring " ++ info ++ ")") err)⟩
  | none =>
    let r := SequenceRestorer.execute ops entry
    match r.err with
    | some err =>
      match ops.rollback with
      | some _ =>
        match SequenceRestorer.DebugInfo entry with
        | .error p => ⟨.begin :: r.calls ++ [.rollback], some p⟩
        | .ok _ =>
          ⟨.begin :: r.calls ++ [.rollback], some (.wrap "unable to restore sequence" err)⟩
      | none => ⟨.begin :: r.calls ++ [.rollback], some (.wrap "unable to restore sequence" err)⟩
    | none =>
      match ops.commit with
      | some err =>
        match SequenceRestorer.DebugInfo entry with
        | .error p => ⟨.begin :: r.calls ++ [.commit], some p⟩
        | .ok info =>
          ⟨.begin :: r.calls ++ [.commit],
            some (.wrap ("cannot commit transaction (restoring " ++ info ++ ")") err)⟩
      | none => ⟨.begin :: r.calls ++ [.commit], none⟩

/-! ## internal/utils/config/viper_workaround.go: `ParseTransformerParamsManually` -/

/-- `path.Ext` scanning the path from its end: `rest` are the characters still to scan,
last one first, `suffix` the ones already passed. -/
def pathExt.go : List Char → List Char → String
  | [], _ => ""
  | c :: rest, suffix =>
    if c = '/' then ""
    else if c = '.' then String.mk ('.' :: suffix)
    else pathExt.go rest (c :: suffix)

/-- `path.Ext`: the suffix beginning at the final dot of the final element of the path,
empty if there is no dot. -/
def pathExt (path : String) : String :=
  pathExt.go path.data.reverse []

/-- The `%s` rendering of an error value by `fmt`; a nil error gives `%!s(<nil>)`. -/
def fmtErrS (renderError : GoError → String) : Option GoError → String
  | none => "%!s(<nil>)"
  | some err => renderError err

/-- The file system and the decoders `ParseTransformerParamsManually` relies on: `os.Open`
giving the content of the file, the JSON and YAML decoders filling a `DummyConfig`,
`json.Marshal`, and the text `err.Error()` of an error. -/
structure ParseOps where
  openFile : String → Except GoError String
  jsonDecode : String → Except GoError DummyConfig
  yamlDecode : String → Except GoError DummyConfig
  jsonMarshal : AnyValue → Except GoError ParamsValue
  renderError : GoError → String

/-- What `ParseTransformerParamsManually` leaves behind: the config, the returned error,
and whether `setTransformerParams` was run. -/
structure ParseOutcome where
  cfg : Config
  err : Option GoError
  setTransformerParamsRun : Bool
  deriving DecidableEq, Repr

/-- The last statement of `ParseTransformerParamsManually`:
`return setTransformerParams(tmpCfg, cfg)`. -/
def ParseTransformerParamsManually.finish (ops : ParseOps) (tmpCfg : DummyConfig)
    (cfg : Config) : ParseOutcome :=
  let r := setTransformerParams ops.jsonMarshal tmpCfg cfg
  ⟨r.1, r.2, true⟩

/-- `ParseTransformerParamsManually`.  In the `default` branch of the switch the variable
`err` holds the result of `os.Open`, which is nil there. -/
def ParseTransformerParamsManually (ops : ParseOps) (cfgFilePath : String) (cfg : Config) :
    ParseOutcome :=
  let ext := pathExt cfgFilePath
  match ops.openFile cfgFilePath with
  | .error err => ⟨cfg, some err, false⟩
  | .ok f =>
    let err : Option GoError := none
    if ext = ".json" then
      match ops.jsonDecode f with
      | .error err => ⟨cfg, some err, false⟩
      | .ok tmpCfg => ParseTransformerParamsManually.finish ops tmpCfg cfg
    else if ext = ".yaml" ∨ ext = ".yml" then
      match ops.yamlDecode f with
      | .error err => ⟨cfg, some err, false⟩
      | .ok tmpCfg => ParseTransformerParamsManually.finish ops tmpCfg cfg
    else
      ⟨cfg, some (.text ("unsupported file extension \"" ++ fmtErrS ops.renderError err ++
        "\"")), false⟩

/-! ## Sample collaborators, for evaluating the model on concrete inputs -/

/-- Rows are the raw lines, a document is the list of the appended pairs; a line
decodes unless it is empty. -/
def sampleDocOps : DocOps String (List (String × String)) where
  decode := fun _ line => if line = "" then .error (.text "empty line") else .ok line
  newJsonDocument := fun _ _ _ => []
  newTextDocument := fun _ _ _ _ => []
  append := fun doc original transformed => .ok (doc ++ [(original, transformed)])
  print := fun _ => none

def sampleValidateConfig : ValidateConfig :=
  ⟨[], true, 10, false, false, "json", "vertical", false,
    ["msg=x severity=warning  a=%!s(int=1)"]⟩

def sampleConfig : Config := ⟨[⟨"public", "t", []⟩], sampleValidateConfig⟩

def sampleTable : EntriesTable := ⟨1, ["id", "name"], ["Replace"], 0⟩

/-- The warnings of the warning-suppression scenario of the specification. -/
def sampleWarnings : ValidationWarnings :=
  [⟨"x", "warning", [("a", .int 1)], ""⟩, ⟨"y", "error", [], ""⟩]

def sampleObjects : List Entry :=
  [.table sampleTable, .other "SEQUENCE SET", .table ⟨2, ["id"], [], 7⟩]

def sampleStream : Reader := ⟨["1\ta", "1\tA", "2\tb", "2\tB", "\\.", "3\tc"], none⟩

def sampleRunEnv : RunEnv where
  bootstrapCustomTransformers := none
  getPgDSN := none
  connect := none
  startMainTx := none
  gatherPgFacts := none
  newRuntimeContext := fun _ => .ok ⟨sampleWarnings, sampleObjects⟩
  dataDump := fun objs => ⟨none, objs.filterMap (fun e =>
    match e with
    | .table t => some t.DumpId
    | .other _ => none)⟩
  getObject := fun name => if name = "1.dat.gz" then .ok (.ok sampleStream)
    else .error (.text "no such object")

/-- A stand-in for `json.Marshal` on the sample values. -/
def sampleJsonMarshal : AnyValue → Except GoError ParamsValue
  | .null => .ok "null"
  | .bool b => .ok (toString b)
  | .int n => .ok (toString n)
  | .str v => .ok ("\"" ++ v ++ "\"")

def sampleDummyConfig : DummyConfig :=
  ⟨[⟨[⟨[("Column", .str "name"), ("keepNull", .bool false)]⟩]⟩]⟩

/-- The config as a loader that lowercases keys has left it. -/
def sampleLoadedConfig : Config :=
  ⟨[⟨"public", "t", [⟨"Replace", [("column", "name"), ("keepnull", "false")], []⟩]⟩],
    sampleValidateConfig⟩

/-- A config with one table `public.t` and the given `validate.tables`. -/
def sampleTablesConfig (tables : List String) : Config :=
  ⟨[⟨"public", "t", []⟩],
    ⟨tables, true, 10, false, false, "json", "vertical", false, []⟩⟩

/-! ## Theorems -/

/-! ### Go maps and string helpers -/

theorem slicesContainsFunc_iff {α : Type} (s : List α) (f : α → Bool) :
    slicesContainsFunc s f = true ↔ ∃ x ∈ s, f x = true := by
  induction s with
  | nil => simp [slicesContainsFunc]
  | cons x rest ih =>
    unfold slicesContainsFunc
    by_cases hx : f x = true
    · simp [hx]
    · simp [hx, ih]

theorem slicesIndex_ne_iff (s : List String) (v : String) :
    slicesIndex s v ≠ -1 ↔ v ∈ s := by
  unfold slicesIndex
  by_cases h : v ∈ s
  · have hlt : s.indexOf v < s.length := List.indexOf_lt_length.mpr h
    simp only [hlt, if_true, h, iff_true]
    omega
  · have hnlt : ¬ s.indexOf v < s.length := fun hlt => h (List.indexOf_lt_length.mp hlt)
    simp [hnlt, h]

theorem lookup_of_mem {V : Type} (m : GoMap V) (hwf : GoMap.WF m) (k : String) (v : V)
    (h : (k, v) ∈ m) : m.lookup k = some v := by
  induction m with
  | nil => simp at h
  | cons p rest ih =>
    obtain ⟨k0, v0⟩ := p
    have hwf0 : k0 ∉ rest.map Prod.fst ∧ (rest.map Prod.fst).Nodup := by
      simpa [GoMap.WF] using hwf
    rcases List.mem_cons.mp h with heq | hmem
    · cases heq
      simp [List.lookup]
    · have hne : k ≠ k0 := by
        intro hk
        apply hwf0.1
        rw [← hk]
        exact List.mem_map_of_mem Prod.fst hmem
      have hbeq : (k == k0) = false := by simpa using hne
      simp only [List.lookup, hbeq]
      exact ih hwf0.2 hmem

theorem mem_of_lookup {V : Type} (m : GoMap V) (k : String) (v : V)
    (h : m.lookup k = some v) : (k, v) ∈ m := by
  induction m with
  | nil => simp at h
  | cons p rest ih =>
    obtain ⟨k0, v0⟩ := p
    by_cases hk : k = k0
    · subst hk
      simp [List.lookup] at h
      simp [h]
    · have hbeq : (k == k0) = false := by simpa using hk
      simp only [List.lookup, hbeq] at h
      exact List.mem_cons_of_mem _ (ih h)

theorem lookup_none_iff {V : Type} (m : GoMap V) (k : String) :
    m.lookup k = none ↔ k ∉ GoMap.keys m := by
  induction m with
  | nil => simp [GoMap.keys]
  | cons p rest ih =>
    obtain ⟨k0, v0⟩ := p
    by_cases hk : k = k0
    · subst hk
      simp [List.lookup, GoMap.keys]
    · have hbeq : (k == k0) = false := by simpa using hk
      simp only [List.lookup, hbeq, ih]
      simp [GoMap.keys, hk]

/-- Two well-formed maps with the same pairs answer every lookup alike. -/
theorem lookup_congr {V : Type} (m1 m2 : GoMap V) (h1 : GoMap.WF m1) (h2 : GoMap.WF m2)
    (hset : ∀ p, p ∈ m1 ↔ p ∈ m2) (k : String) : m1.lookup k = m2.lookup k := by
  cases hl : m1.lookup k with
  | some v =>
    exact (lookup_of_mem m2 h2 k v ((hset (k, v)).mp (mem_of_lookup m1 k v hl))).symm
  | none =>
    cases hr : m2.lookup k with
    | none => rfl
    | some v =>
      have := lookup_of_mem m1 h1 k v ((hset (k, v)).mpr (mem_of_lookup m2 k v hr))
      rw [hl] at this
      cases this

theorem keys_perm {V : Type} (m1 m2 : GoMap V) (h1 : GoMap.WF m1) (h2 : GoMap.WF m2)
    (hset : ∀ p, p ∈ m1 ↔ p ∈ m2) : (GoMap.keys m1).Perm (GoMap.keys m2) := by
  have n1 : m1.Nodup := List.Nodup.of_map Prod.fst h1
  have n2 : m2.Nodup := List.Nodup.of_map Prod.fst h2
  exact ((List.perm_ext_iff_of_nodup n1 n2).mpr hset).map Prod.fst

theorem slicesSort_perm_eq (l1 l2 : List String) (h : l1.Perm l2) :
    slicesSort l1 = slicesSort l2 := by
  unfold slicesSort
  apply List.eq_of_perm_of_sorted (r := fun a b : String => a ≤ b)
  · exact ((List.perm_insertionSort _ l1).trans h).trans (List.perm_insertionSort _ l2).symm
  · exact List.sorted_insertionSort _ l1
  · exact List.sorted_insertionSort _ l2

theorem metaLoop_congr (m1 m2 : GoMap AnyValue) (keys : List String) (acc : String)
    (h : ∀ k ∈ keys, m1.get k .null = m2.get k .null) :
    MakeHash.metaLoop m1 keys acc = MakeHash.metaLoop m2 keys acc := by
  induction keys generalizing acc with
  | nil => rfl
  | cons k rest ih =>
    simp only [MakeHash.metaLoop]
    rw [h k (List.mem_cons_self _ _)]
    exact ih _ (fun k2 hk2 => h k2 (List.mem_cons_of_mem _ hk2))

theorem metaString_congr (m1 m2 : GoMap AnyValue) (h1 : GoMap.WF m1) (h2 : GoMap.WF m2)
    (hset : ∀ p, p ∈ m1 ↔ p ∈ m2) :
    MakeHash.metaLoop m1 (slicesSort (GoMap.keys m1)) "" =
      MakeHash.metaLoop m2 (slicesSort (GoMap.keys m2)) "" := by
  rw [slicesSort_perm_eq _ _ (keys_perm m1 m2 h1 h2 hset)]
  apply metaLoop_congr
  intro k _
  unfold GoMap.get
  rw [lookup_congr m1 m2 h1 h2 hset k]

/-! ### C1 -/

theorem isFatal_eq_true_iff (ws : ValidationWarnings) :
    ValidationWarnings.IsFatal ws = true ↔ ∃ w ∈ ws, w.Severity = "error" := by
  unfold ValidationWarnings.IsFatal
  rw [slicesContainsFunc_iff]
  simp [ErrorValidationSeverity]

/-- C1: `ValidationWarnings.IsFatal` is true exactly when some warning of the list has
severity "error"; it is false on the empty list and on every list whose severities are
all among debug, info and warning. -/
theorem IsFatal_iff_any_error (ws : ValidationWarnings) :
    (ValidationWarnings.IsFatal ws = true ↔ ∃ w ∈ ws, w.Severity = "error") ∧
    ValidationWarnings.IsFatal [] = false ∧
    ((∀ w ∈ ws, w.Severity = "debug" ∨ w.Severity = "info" ∨ w.Severity = "warning") →
      ValidationWarnings.IsFatal ws = false) := by
  have hiff := isFatal_eq_true_iff ws
  refine ⟨hiff, rfl, ?_⟩
  intro hlow
  cases hf : ValidationWarnings.IsFatal ws with
  | false => rfl
  | true =>
    obtain ⟨w, hw, hsev⟩ := hiff.mp hf
    rcases hlow w hw with h | h | h <;> rw [hsev] at h <;> exact absurd h (by decide)

theorem IsFatal_iff_any_error_witness :
    (ValidationWarnings.IsFatal [⟨"m", "warning", [], ""⟩, ⟨"n", "error", [], ""⟩] = true ↔
      ∃ w ∈ [(⟨"m", "warning", [], ""⟩ : ValidationWarning), ⟨"n", "error", [], ""⟩],
        w.Severity = "error") ∧
    ValidationWarnings.IsFatal [⟨"m", "warning", [], ""⟩, ⟨"n", "error", [], ""⟩] = true ∧
    ValidationWarnings.IsFatal [⟨"m", "warning", [], ""⟩, ⟨"n", "info", [], ""⟩] = false :=
  ⟨(IsFatal_iff_any_error [⟨"m", "warning", [], ""⟩, ⟨"n", "error", [], ""⟩]).1,
   by decide,
   (IsFatal_iff_any_error [⟨"m", "warning", [], ""⟩, ⟨"n", "info", [], ""⟩]).2.2
     (by decide)⟩

/-! ### C2 -/

/-- C2: `MakeHash` is stable under meta-key reordering: two warnings with the same Msg,
the same Severity and the same set of meta key/value pairs (each a well-formed map, in
whatever enumeration order, with whatever previous Hash) get the same Hash. -/
theorem MakeHash_stable_under_reordering (md5hex : String → String)
    (w1 w2 : ValidationWarning)
    (hwf1 : GoMap.WF w1.Meta) (hwf2 : GoMap.WF w2.Meta)
    (hmsg : w1.Msg = w2.Msg) (hsev : w1.Severity = w2.Severity)
    (hmeta : ∀ p, p ∈ w1.Meta ↔ p ∈ w2.Meta) :
    (w1.MakeHash md5hex).Hash = (w2.MakeHash md5hex).Hash := by
  simp only [ValidationWarning.MakeHash, MakeHash.signature]
  rw [hmsg, hsev, metaString_congr w1.Meta w2.Meta hwf1 hwf2 hmeta]

theorem MakeHash_stable_under_reordering_witness :
    ((⟨"x", "warning", [("a", .str "1"), ("b", .int 2)], "old"⟩ :
        ValidationWarning).MakeHash (fun s => s)).Hash =
    ((⟨"x", "warning", [("b", .int 2), ("a", .str "1")], ""⟩ :
        ValidationWarning).MakeHash (fun s => s)).Hash :=
  MakeHash_stable_under_reordering (fun s => s)
    ⟨"x", "warning", [("a", .str "1"), ("b", .int 2)], "old"⟩
    ⟨"x", "warning", [("b", .int 2), ("a", .str "1")], ""⟩
    (by decide) (by decide) rfl rfl (by
      intro p
      simp only [List.mem_cons, List.mem_singleton, List.not_mem_nil, or_false]
      exact or_comm)

/-! ### C3 -/

theorem str_append_left_cancel (a b c : String) (h : a ++ b = a ++ c) : b = c := by
  have hd := congrArg String.data h
  simp only [String.data_append] at hd
  exact String.ext (List.append_cancel_left hd)

theorem str_append_right_cancel (a b c : String) (h : a ++ c = b ++ c) : a = b := by
  have hd := congrArg String.data h
  simp only [String.data_append] at hd
  exact String.ext (List.append_cancel_right hd)

theorem metaLoop_acc (m : GoMap AnyValue) (keys : List String) (acc : String) :
    MakeHash.metaLoop m keys acc = acc ++ MakeHash.metaLoop m keys "" := by
  induction keys generalizing acc with
  | nil => simp [MakeHash.metaLoop]
  | cons k rest ih =>
    simp only [MakeHash.metaLoop]
    rw [ih, ih ("" ++ " " ++ k ++ "=" ++ (m.get k .null).fmtS)]
    simp only [String.empty_append, String.append_assoc]

theorem metaLoop_append (m : GoMap AnyValue) (xs ys : List String) (acc : String) :
    MakeHash.metaLoop m (xs ++ ys) acc = MakeHash.metaLoop m ys (MakeHash.metaLoop m xs acc) := by
  induction xs generalizing acc with
  | nil => rfl
  | cons k rest ih =>
    simp only [List.cons_append, MakeHash.metaLoop]
    exact ih _

theorem slicesSort_nodup (l : List String) (h : l.Nodup) : (slicesSort l).Nodup :=
  (List.perm_insertionSort _ l).nodup_iff.mpr h

theorem signature_ne_of_metaDiffersAt (w1 w2 : ValidationWarning)
    (hwf1 : GoMap.WF w1.Meta) (hwf2 : GoMap.WF w2.Meta)
    (hmsg : w1.Msg = w2.Msg) (hsev : w1.Severity = w2.Severity) (k : String)
    (hd : MetaDiffersAt w1.Meta w2.Meta k) :
    MakeHash.signature w1 ≠ MakeHash.signature w2 := by
  obtain ⟨hkeys, hk, hother, s1, s2, hv1, hv2, hne⟩ := hd
  have hperm : (GoMap.keys w1.Meta).Perm (GoMap.keys w2.Meta) :=
    (List.perm_ext_iff_of_nodup hwf1 hwf2).mpr hkeys
  have hsorted := slicesSort_perm_eq _ _ hperm
  have hmem : k ∈ slicesSort (GoMap.keys w1.Meta) :=
    (List.perm_insertionSort _ _).mem_iff.mpr hk
  obtain ⟨pre, post, hsplit⟩ := List.append_of_mem hmem
  have hnd : (pre ++ k :: post).Nodup := hsplit ▸ slicesSort_nodup _ hwf1
  have hpre : k ∉ pre := fun hin =>
    (List.nodup_append.mp hnd).2.2 hin (List.mem_cons_self _ _) 
  have hpost : k ∉ post := (List.nodup_cons.mp (List.nodup_append.mp hnd).2.1).1
  have hP : MakeHash.metaLoop w1.Meta pre "" = MakeHash.metaLoop w2.Meta pre "" :=
    metaLoop_congr _ _ _ _ (fun k2 hk2 => hother k2 (fun h => hpre (h ▸ hk2)))
  have hQ : MakeHash.metaLoop w1.Meta post "" = MakeHash.metaLoop w2.Meta post "" :=
    metaLoop_congr _ _ _ _ (fun k2 hk2 => hother k2 (fun h => hpost (h ▸ hk2)))
  intro heq
  simp only [MakeHash.signature] at heq
  rw [← hsorted, hsplit, metaLoop_append, metaLoop_append, hmsg, hsev] at heq
  simp only [MakeHash.metaLoop, hv1, hv2, AnyValue.fmtS] at heq
  rw [metaLoop_acc w1.Meta post, metaLoop_acc w2.Meta post, hP, hQ] at heq
  exact hne (str_append_left_cancel _ _ _
    (str_append_right_cancel _ _ _ (str_append_left_cancel _ _ _ heq)))

/-- C3 (as stated, refuted): two warnings that differ in Msg and in a meta value, with
severities from the declared constants and string-valued meta, have the same signature;
and so have two warnings with equal Msg, Severity and key set that differ only in the
values of their meta keys.  `MakeHash` therefore gives each pair one Hash. -/
theorem MakeHash_signature_collision :
    ((⟨"a", "error", [("k", .str "x severity=error ")], ""⟩ : ValidationWarning).Msg ≠
      (⟨"a severity=error  k=x", "error", [], ""⟩ : ValidationWarning).Msg ∧
     MakeHash.signature ⟨"a", "error", [("k", .str "x severity=error ")], ""⟩ =
      MakeHash.signature ⟨"a severity=error  k=x", "error", [], ""⟩) ∧
    (GoMap.get [("a", AnyValue.str "x b=y"), ("b", .str "z")] "a" .null ≠
      GoMap.get [("a", AnyValue.str "x"), ("b", .str "y b=z")] "a" .null ∧
     MakeHash.signature ⟨"m", "warning", [("a", .str "x b=y"), ("b", .str "z")], ""⟩ =
      MakeHash.signature ⟨"m", "warning", [("a", .str "x"), ("b", .str "y b=z")], ""⟩) := by
  have hab : ("a" : String) ≤ "b" := by
    rw [String.le_iff_toList_le]
    decide
  have hsort : slicesSort ["a", "b"] = ["a", "b"] := by
    simp [slicesSort, List.insertionSort, List.orderedInsert, hab]
  refine ⟨⟨by decide, by decide⟩, by decide, ?_⟩
  simp only [MakeHash.signature, GoMap.keys, List.map, hsort]
  decide

/-- C3 (amended): when two warnings with well-formed meta maps differ in exactly one of
Msg, Severity and the string value of one meta key (everything else being the same), the
signatures that `MakeHash` feeds to md5 differ, and so do the two Hash values when md5 is
injective. -/
theorem MakeHash_unstable_under_single_change (md5hex : String → String)
    (hinj : Function.Injective md5hex) (w1 w2 : ValidationWarning)
    (hwf1 : GoMap.WF w1.Meta) (hwf2 : GoMap.WF w2.Meta)
    (hchange : SingleFieldChange w1 w2) :
    MakeHash.signature w1 ≠ MakeHash.signature w2 ∧
    (w1.MakeHash md5hex).Hash ≠ (w2.MakeHash md5hex).Hash := by
  have hsig : MakeHash.signature w1 ≠ MakeHash.signature w2 := by
    rcases hchange with ⟨hmsg, hsev, hmeta⟩ | ⟨hmsg, hsev, hmeta⟩ | ⟨hmsg, hsev, k, hd⟩
    · intro heq
      simp only [MakeHash.signature] at heq
      rw [metaString_congr w1.Meta w2.Meta hwf1 hwf2 hmeta, hsev] at heq
      simp only [String.append_assoc] at heq
      exact hmsg (str_append_right_cancel _ _ _ (str_append_left_cancel _ _ _ heq))
    · intro heq
      simp only [MakeHash.signature] at heq
      rw [metaString_congr w1.Meta w2.Meta hwf1 hwf2 hmeta, hmsg] at heq
      simp only [String.append_assoc] at heq
      exact hsev (str_append_right_cancel _ _ _
        (str_append_left_cancel _ _ _
          (str_append_left_cancel _ _ _ (str_append_left_cancel _ _ _ heq))))
    · exact signature_ne_of_metaDiffersAt w1 w2 hwf1 hwf2 hmsg hsev k hd
  exact ⟨hsig, fun h => hsig (hinj h)⟩

theorem MakeHash_unstable_under_single_change_witness :
    MakeHash.signature ⟨"x", "warning", [("a", .str "1")], ""⟩ ≠
      MakeHash.signature ⟨"x", "warning", [("a", .str "2")], ""⟩ ∧
    ((⟨"x", "warning", [("a", .str "1")], ""⟩ : ValidationWarning).MakeHash (fun s => s)).Hash ≠
      ((⟨"x", "warning", [("a", .str "2")], ""⟩ : ValidationWarning).MakeHash (fun s => s)).Hash :=
  MakeHash_unstable_under_single_change (fun s => s) (fun _ _ h => h)
    ⟨"x", "warning", [("a", .str "1")], ""⟩ ⟨"x", "warning", [("a", .str "2")], ""⟩
    (by decide) (by decide)
    (Or.inr (Or.inr ⟨rfl, rfl, "a", fun _ => Iff.rfl, by decide,
      fun k2 hk2 => by
        have hb : (k2 == "a") = false := by simpa using hk2
        simp [GoMap.get, List.lookup, hb],
      "1", "2", by decide, by decide, by decide⟩))

/-! ### C4, C5 -/

theorem emittedWarnings_append (xs ys : List LogLine) :
    emittedWarnings (xs ++ ys) = emittedWarnings xs ++ emittedWarnings ys := by
  induction xs with
  | nil => rfl
  | cons x rest ih => cases x <;> simp [emittedWarnings, ih]

/-- The loop returns an error exactly when it meets an error-severity warning whose hash
is resolved. -/
theorem printLoop_err_iff (md5hex : String → String) (rs : List String) (printAll : Bool)
    (ws seen : List ValidationWarning) (log : List LogLine) :
    (printLoop md5hex rs printAll ws seen log).err ≠ none ↔
      ∃ w ∈ ws, w.Severity = "error" ∧ (w.MakeHash md5hex).Hash ∈ rs := by
  induction ws generalizing seen log with
  | nil => simp [printLoop]
  | cons w rest ih =>
    unfold printLoop
    simp only [slicesIndex_ne_iff, ErrorValidationSeverity]
    have hsev : (w.MakeHash md5hex).Severity = w.Severity := rfl
    by_cases hres : (w.MakeHash md5hex).Hash ∈ rs
    · by_cases herr : w.Severity = "error"
      · simp only [hres, hsev, herr, if_true]
        constructor
        · intro _
          exact ⟨w, List.mem_cons_self _ _, herr, hres⟩
        · intro _
          simp
      · simp only [hres, hsev, herr, if_true, if_false]
        refine (ih _ _).trans ?_
        simp [herr]
    · by_cases herr : w.Severity = "error"
      · simp only [hres, hsev, herr, if_true, if_false]
        refine (ih _ _).trans ?_
        simp [hres]
      · cases printAll <;>
          simp only [hres, hsev, herr, if_true, if_false, Bool.false_eq_true] <;>
          refine (ih _ _).trans ?_ <;> simp [herr]

/-- When the loop ends without error, what it wrote at warn or error level is the
filtered list of the hashed warnings, after what had been written before. -/
theorem printLoop_emitted (md5hex : String → String) (rs : List String) (printAll : Bool)
    (ws seen : List ValidationWarning) (log : List LogLine)
    (hnil : (printLoop md5hex rs printAll ws seen log).err = none) :
    emittedWarnings (printLoop md5hex rs printAll ws seen log).log =
      emittedWarnings log ++ (ws.map (fun w => w.MakeHash md5hex)).filter
        (fun w => decide (w.Hash ∉ rs) && (decide (w.Severity = "error") || printAll)) := by
  induction ws generalizing seen log with
  | nil => simp [printLoop]
  | cons w rest ih =>
    unfold printLoop at hnil ⊢
    simp only [slicesIndex_ne_iff, ErrorValidationSeverity] at hnil ⊢
    have hsev : (w.MakeHash md5hex).Severity = w.Severity := rfl
    by_cases hres : (w.MakeHash md5hex).Hash ∈ rs
    · by_cases herr : w.Severity = "error"
      · simp [hres, hsev, herr] at hnil
      · simp only [hres, hsev, herr, if_true, if_false] at hnil ⊢
        rw [ih _ _ hnil]
        simp [emittedWarnings_append, emittedWarnings, List.filter, hres]
    · by_cases herr : w.Severity = "error"
      · simp only [hres, hsev, herr, if_true, if_false] at hnil ⊢
        rw [ih _ _ hnil]
        simp [emittedWarnings_append, emittedWarnings, List.filter, hres, hsev, herr]
      · cases printAll
        · simp only [hres, hsev, herr, if_false, Bool.false_eq_true] at hnil ⊢
          rw [ih _ _ hnil]
          simp [List.filter, hres, hsev, herr]
        · simp only [hres, hsev, herr, if_true, if_false] at hnil ⊢
          rw [ih _ _ hnil]
          simp [emittedWarnings_append, emittedWarnings, List.filter, hres, hsev, herr]

/-- C4: `toolkit.PrintValidationWarnings` returns a non-nil error if and only if some
warning of the list has severity "error" and its hash, as `MakeHash` computes it, occurs
among the resolved hashes; otherwise it returns nil. -/
theorem PrintValidationWarnings_error_iff (md5hex : String → String)
    (ws : ValidationWarnings) (rs : List String) (printAll : Bool) :
    ((PrintValidationWarnings md5hex ws rs printAll).err ≠ none ↔
      ∃ w ∈ ws, w.Severity = "error" ∧ (w.MakeHash md5hex).Hash ∈ rs) ∧
    ((¬ ∃ w ∈ ws, w.Severity = "error" ∧ (w.MakeHash md5hex).Hash ∈ rs) →
      (PrintValidationWarnings md5hex ws rs printAll).err = none) := by
  have h := printLoop_err_iff md5hex rs printAll ws [] []
  refine ⟨h, fun hno => ?_⟩
  by_contra hne
  exact hno (h.mp hne)

theorem PrintValidationWarnings_error_iff_witness :
    (PrintValidationWarnings (fun s => s) [⟨"y", "info", [], ""⟩, ⟨"z", "error", [], ""⟩]
      ["msg=y severity=info "] true).err = none :=
  (PrintValidationWarnings_error_iff (fun s => s)
    [⟨"y", "info", [], ""⟩, ⟨"z", "error", [], ""⟩] ["msg=y severity=info "] true).2
    (by decide)

/-- C5: whenever `toolkit.PrintValidationWarnings` returns nil, the warnings it writes at
warn or error level are, in input order, exactly the (hashed) warnings whose hash is not
resolved and whose severity is "error" or for which printAll is set; so an unresolved
error-severity warning is written even without printAll, and no written warning has a
resolved hash. -/
theorem PrintValidationWarnings_emitted (md5hex : String → String)
    (ws : ValidationWarnings) (rs : List String) (printAll : Bool)
    (hnil : (PrintValidationWarnings md5hex ws rs printAll).err = none) :
    emittedWarnings (PrintValidationWarnings md5hex ws rs printAll).log =
      (ws.map (fun w => w.MakeHash md5hex)).filter
        (fun w => decide (w.Hash ∉ rs) && (decide (w.Severity = "error") || printAll)) ∧
    (∀ w ∈ ws, w.Severity = "error" → (w.MakeHash md5hex).Hash ∉ rs →
      w.MakeHash md5hex ∈ emittedWarnings (PrintValidationWarnings md5hex ws rs printAll).log) ∧
    (∀ w ∈ emittedWarnings (PrintValidationWarnings md5hex ws rs printAll).log,
      w.Hash ∉ rs) := by
  have h := printLoop_emitted md5hex rs printAll ws [] [] hnil
  have h2 : emittedWarnings (PrintValidationWarnings md5hex ws rs printAll).log =
      (ws.map (fun w => w.MakeHash md5hex)).filter
        (fun w => decide (w.Hash ∉ rs) && (decide (w.Severity = "error") || printAll)) := by
    simpa [PrintValidationWarnings, emittedWarnings] using h
  refine ⟨h2, ?_, ?_⟩
  · intro w hw hsev hres
    rw [h2, List.mem_filter]
    have hsev2 : (w.MakeHash md5hex).Severity = "error" := hsev
    exact ⟨List.mem_map_of_mem _ hw, by simp [hres, hsev2]⟩
  · intro w hw
    rw [h2, List.mem_filter] at hw
    have hsel := hw.2
    simp only [Bool.and_eq_true, decide_eq_true_eq] at hsel
    exact hsel.1

theorem PrintValidationWarnings_emitted_witness :
    emittedWarnings (PrintValidationWarnings (fun s => s)
      [⟨"x", "warning", [("a", .int 1)], ""⟩, ⟨"y", "error", [], ""⟩]
      ["msg=x severity=warning  a=%!s(int=1)"] false).log =
      [⟨"y", "error", [], "msg=y severity=error "⟩] :=
  (PrintValidationWarnings_emitted (fun s => s)
    [⟨"x", "warning", [("a", .int 1)], ""⟩, ⟨"y", "error", [], ""⟩]
    ["msg=x severity=warning  a=%!s(int=1)"] false (by decide)).1.trans (by decide)

/-! ### C6 -/

/-- The loop hashes every warning in place when it runs to its end. -/
theorem printLoop_warns (md5hex : String → String) (rs : List String) (printAll : Bool)
    (ws seen : List ValidationWarning) (log : List LogLine)
    (hnil : (printLoop md5hex rs printAll ws seen log).err = none) :
    (printLoop md5hex rs printAll ws seen log).warns =
      seen ++ ws.map (fun w => w.MakeHash md5hex) := by
  induction ws generalizing seen log with
  | nil => simp [printLoop]
  | cons w rest ih =>
    unfold printLoop at hnil ⊢
    simp only [slicesIndex_ne_iff] at hnil ⊢
    by_cases hres : (w.MakeHash md5hex).Hash ∈ rs
    · by_cases herr : (w.MakeHash md5hex).Severity = ErrorValidationSeverity
      · simp [hres, herr] at hnil
      · simp only [hres, herr, if_true, if_false] at hnil ⊢
        rw [ih _ _ hnil]
        simp
    · by_cases herr : (w.MakeHash md5hex).Severity = ErrorValidationSeverity
      · simp only [hres, herr, if_true, if_false] at hnil ⊢
        rw [ih _ _ hnil]
        simp
      · cases printAll <;>
          simp only [hres, herr, if_true, if_false, Bool.false_eq_true] at hnil ⊢ <;>
          rw [ih _ _ hnil] <;> simp

theorem IsFatal_map_MakeHash (md5hex : String → String) (ws : ValidationWarnings) :
    ValidationWarnings.IsFatal (ws.map (fun w => w.MakeHash md5hex)) =
      ValidationWarnings.IsFatal ws := by
  induction ws with
  | nil => rfl
  | cons w rest ih =>
    simp only [ValidationWarnings.IsFatal, List.map, slicesContainsFunc] at ih ⊢
    rw [ih]
    rfl

theorem printValidationWarnings_err_iff (md5hex : String → String) (config : Config)
    (context : RuntimeContext) :
    (Validate.printValidationWarnings md5hex config context).err ≠ none ↔
      ∃ w ∈ context.Warnings, w.Severity = "error" := by
  have hfatal := isFatal_eq_true_iff context.Warnings
  unfold Validate.printValidationWarnings
  simp only []
  split
  · next err herr =>
    simp only [ne_eq, reduceCtorEq, not_false_eq_true, true_iff]
    have hne : (printLoop md5hex config.Validate.ResolvedWarnings config.Validate.Warnings
      context.Warnings [] []).err ≠ none := by simp [herr]
    obtain ⟨w, hw, hsev, _⟩ := (printLoop_err_iff _ _ _ _ _ _).mp hne
    exact ⟨w, hw, hsev⟩
  · next herr =>
    simp only [RuntimeContext.IsFatal, printLoop_warns _ _ _ _ _ _ herr, List.nil_append,
      IsFatal_map_MakeHash]
    cases hf : ValidationWarnings.IsFatal context.Warnings with
    | true =>
      simp only [if_true, ne_eq, reduceCtorEq, not_false_eq_true, true_iff]
      exact hfatal.mp hf
    | false =>
      simp only [Bool.false_eq_true, if_false, ne_eq, not_true_eq_false, false_iff]
      intro hex
      rw [hfatal.mpr hex] at hf
      cases hf

theorem Run_inTx_calls {Row Doc : Type} (ops : DocOps Row Doc) (md5hex : String → String)
    (env : RunEnv) (config : Config) :
    (∀ err, Call.printValidationWarnings (some err) ∈
        (Validate.Run.inTx ops md5hex env config).calls →
      Call.dumpTables ∉ (Validate.Run.inTx ops md5hex env config).calls ∧
      Call.print ∉ (Validate.Run.inTx ops md5hex env config).calls ∧
      (Validate.Run.inTx ops md5hex env config).err = some err) ∧
    (Call.dumpTables ∈ (Validate.Run.inTx ops md5hex env config).calls ∨
      Call.print ∈ (Validate.Run.inTx ops md5hex env config).calls →
      ∃ tables context, env.newRuntimeContext tables = .ok context ∧
        ¬ ∃ w ∈ context.Warnings, w.Severity = "error") := by
  unfold Validate.Run.inTx
  cases env.gatherPgFacts with
  | some e => simp
  | none =>
    cases Validate.getTablesToValidate config with
    | error e => simp
    | ok tables =>
      cases hctx : env.newRuntimeContext tables with
      | error e => simp [hctx]
      | ok context =>
        have hiff := printValidationWarnings_err_iff md5hex
          { config with Transformation := tables } context
        cases hw : (Validate.printValidationWarnings md5hex
            { config with Transformation := tables } context).err with
        | some e => simp [hctx, hw]
        | none =>
          have hno : ¬ ∃ w ∈ context.Warnings, w.Severity = "error" := by
            intro hex
            exact (hiff.mpr hex) hw
          by_cases hdata : config.Validate.Data = true
          · cases hd : (Validate.dumpTables env.dataDump { config with Transformation := tables }
                { context with Warnings := (Validate.printValidationWarnings md5hex
                  { config with Transformation := tables } context).warns }).err with
            | some e =>
              simp only [hctx, hw, hdata, hd]
              refine ⟨by simp, fun _ => ⟨tables, context, hctx, hno⟩⟩
            | none =>
              simp only [hctx, hw, hdata, hd]
              refine ⟨by simp, fun _ => ⟨tables, context, hctx, hno⟩⟩
          · simp [hctx, hw, hdata]

/-- C6: with the context's IsFatal being `ValidationWarnings.IsFatal` over its warnings,
`Validate.printValidationWarnings` returns a non-nil error if and only if the warnings
hold one of severity "error", resolved or not; and a run of `Validate.Run` in which it
returned an error takes neither the step dumpTables nor the step print and returns that
error, so a run that takes one of those steps has built a context without any
error-severity warning. -/
theorem printValidationWarnings_aborts_run {Row Doc : Type} (ops : DocOps Row Doc)
    (md5hex : String → String) (env : RunEnv) (config : Config) :
    (∀ (cfg : Config) (context : RuntimeContext),
      (Validate.printValidationWarnings md5hex cfg context).err ≠ none ↔
        ∃ w ∈ context.Warnings, w.Severity = "error") ∧
    (∀ err, Call.printValidationWarnings (some err) ∈ (Validate.Run ops md5hex env config).calls →
      Call.dumpTables ∉ (Validate.Run ops md5hex env config).calls ∧
      Call.print ∉ (Validate.Run ops md5hex env config).calls ∧
      (Validate.Run ops md5hex env config).err = some err) ∧
    (Call.dumpTables ∈ (Validate.Run ops md5hex env config).calls ∨
      Call.print ∈ (Validate.Run ops md5hex env config).calls →
      ∃ tables context, env.newRuntimeContext tables = .ok context ∧
        ¬ ∃ w ∈ context.Warnings, w.Severity = "error") := by
  refine ⟨fun cfg context => printValidationWarnings_err_iff md5hex cfg context, ?_⟩
  have hin := Run_inTx_calls ops md5hex env config
  unfold Validate.Run
  cases env.bootstrapCustomTransformers with
  | some e => simp
  | none =>
    cases env.getPgDSN with
    | some e => simp
    | none =>
      cases env.connect with
      | some e => simp
      | none =>
        cases env.startMainTx with
        | some e => simp
        | none =>
          simp only [List.mem_append, List.mem_cons, List.mem_singleton, reduceCtorEq,
            false_or, or_false, List.not_mem_nil]
          exact hin

theorem printValidationWarnings_aborts_run_witness :
    (Validate.printValidationWarnings (fun s => s) sampleConfig
      ⟨sampleWarnings, sampleObjects⟩).err = some (.text "fatal validation error") ∧
    (Call.dumpTables ∉ (Validate.Run sampleDocOps (fun s => s) sampleRunEnv sampleConfig).calls ∧
     Call.print ∉ (Validate.Run sampleDocOps (fun s => s) sampleRunEnv sampleConfig).calls ∧
     (Validate.Run sampleDocOps (fun s => s) sampleRunEnv sampleConfig).err =
      some (.text "fatal validation error")) :=
  ⟨by decide,
   (printValidationWarnings_aborts_run sampleDocOps (fun s => s) sampleRunEnv sampleConfig).2.1
     (.text "fatal validation error") (by decide)⟩

/-! ### C8 -/

theorem dumpTables_loop_eq (rowsLimit : Nat) (items objects acc : List Entry) :
    Validate.dumpTables.loop rowsLimit items objects acc =
      (objects ++ items.map (fun e =>
          if e.isTableWithTransformers then e.withLimit rowsLimit else e),
       acc ++ (items.filter Entry.isTableWithTransformers).map (Entry.withLimit rowsLimit)) := by
  induction items generalizing objects acc with
  | nil => simp [Validate.dumpTables.loop]
  | cons item rest ih =>
    cases item with
    | table t =>
      by_cases ht : t.Transformers.length > 0
      · simp [Validate.dumpTables.loop, ht, ih, Entry.isTableWithTransformers, Entry.withLimit]
      · simp [Validate.dumpTables.loop, ht, ih, Entry.isTableWithTransformers]
    | other kind =>
      simp [Validate.dumpTables.loop, ih, Entry.isTableWithTransformers]

/-- C8: `Validate.dumpTables` hands to `dataDump` exactly the tables with at least one
transformer, in their original order, each with ValidateLimitedRecords set to
`config.Validate.RowsLimit`; the other objects are dropped from the list and are left as
they were. -/
theorem dumpTables_passes_limited_tables (dataDump : List Entry → DataDumpResult)
    (config : Config) (context : RuntimeContext) :
    (Validate.dumpTables dataDump config context).dataSectionObjects =
      (context.DataSectionObjects.filter Entry.isTableWithTransformers).map
        (Entry.withLimit config.Validate.RowsLimit) ∧
    (Validate.dumpTables dataDump config context).dataEntries =
      (dataDump ((context.DataSectionObjects.filter Entry.isTableWithTransformers).map
        (Entry.withLimit config.Validate.RowsLimit))).dataEntries ∧
    ((Validate.dumpTables dataDump config context).err = none ↔
      (dataDump ((context.DataSectionObjects.filter Entry.isTableWithTransformers).map
        (Entry.withLimit config.Validate.RowsLimit))).err = none) ∧
    (∀ e ∈ (Validate.dumpTables dataDump config context).dataSectionObjects,
      ∃ t, e = .table t ∧ 0 < t.Transformers.length ∧
        t.ValidateLimitedRecords = config.Validate.RowsLimit) ∧
    (Validate.dumpTables dataDump config context).objects =
      context.DataSectionObjects.map (fun e =>
        if e.isTableWithTransformers then e.withLimit config.Validate.RowsLimit else e) := by
  have hloop := dumpTables_loop_eq config.Validate.RowsLimit context.DataSectionObjects [] []
  simp only [List.nil_append] at hloop
  have hobjs : (Validate.dumpTables dataDump config context).dataSectionObjects =
      (context.DataSectionObjects.filter Entry.isTableWithTransformers).map
        (Entry.withLimit config.Validate.RowsLimit) := by
    unfold Validate.dumpTables
    simp only [hloop]
    split <;> rfl
  refine ⟨hobjs, ?_, ?_, ?_, ?_⟩
  · unfold Validate.dumpTables
    simp only [hloop]
    split <;> rfl
  · unfold Validate.dumpTables
    simp only [hloop]
    split
    · next err herr => simp [herr]
    · next herr => simp [herr]
  · intro e he
    rw [hobjs, List.mem_map] at he
    obtain ⟨e0, he0, rfl⟩ := he
    rw [List.mem_filter] at he0
    cases e0 with
    | table t =>
      refine ⟨{ t with ValidateLimitedRecords := config.Validate.RowsLimit }, rfl, ?_, rfl⟩
      simpa [Entry.isTableWithTransformers] using he0.2
    | other kind => simp [Entry.isTableWithTransformers] at he0
  · unfold Validate.dumpTables
    simp only [hloop]
    split <;> rfl

theorem dumpTables_passes_limited_tables_witness :
    (Validate.dumpTables sampleRunEnv.dataDump sampleConfig
      ⟨sampleWarnings, sampleObjects⟩).dataSectionObjects =
      [.table ⟨1, ["id", "name"], ["Replace"], 10⟩] ∧
    (Validate.dumpTables sampleRunEnv.dataDump sampleConfig
      ⟨sampleWarnings, sampleObjects⟩).objects =
      [.table ⟨1, ["id", "name"], ["Replace"], 10⟩, .other "SEQUENCE SET",
        .table ⟨2, ["id"], [], 7⟩] :=
  ⟨(dumpTables_passes_limited_tables sampleRunEnv.dataDump sampleConfig
      ⟨sampleWarnings, sampleObjects⟩).1.trans (by decide),
   (dumpTables_passes_limited_tables sampleRunEnv.dataDump sampleConfig
      ⟨sampleWarnings, sampleObjects⟩).2.2.2.2.trans (by decide)⟩

/-! ### C9 -/

/-- A turn of the loop that goes on has read two lines. -/
theorem readRecords_ok_lines {Row Doc : Type} (ops : DocOps Row Doc) (r r1 : Reader)
    (t : EntriesTable) (rows : Row × Row)
    (h : Validate.readRecords ops r t = (.ok rows, r1)) :
    r1.lines.length + 2 = r.lines.length := by
  obtain ⟨lines, fault⟩ := r
  unfold Validate.readRecords ReadLine at h
  cases lines with
  | nil =>
    simp only at h
    split at h <;> simp at h
  | cons l1 rest =>
    simp only at h
    split at h
    · simp at h
    · cases rest with
      | nil => simp at h
      | cons l2 rest2 =>
        simp only at h
        split at h
        · simp at h
        · split at h
          · simp at h
          · simp only [Prod.mk.injEq] at h
            rw [← h.2]
            rfl

/-- The loop of `createDocument` does not depend on its fuel, once the fuel is above the
number of lines of the stream: the bound is never reached. -/
theorem createDocument_loop_fuel {Row Doc : Type} (ops : DocOps Row Doc) (t : EntriesTable)
    (fuel1 fuel2 : Nat) (r : Reader) (doc : Doc) (line : Nat)
    (h1 : r.lines.length < fuel1) (h2 : r.lines.length < fuel2) :
    Validate.createDocument.loop ops t fuel1 r doc line =
      Validate.createDocument.loop ops t fuel2 r doc line := by
  induction fuel1 generalizing fuel2 r doc line with
  | zero => simp at h1
  | succ f1 ih =>
    cases fuel2 with
    | zero => simp at h2
    | succ f2 =>
      unfold Validate.createDocument.loop
      cases hrec : Validate.readRecords ops r t with
      | mk res r1 =>
        cases res with
        | error err => rfl
        | ok rows =>
          obtain ⟨original, transformed⟩ := rows
          have hlen := readRecords_ok_lines ops r r1 t (original, transformed) hrec
          simp only
          cases ops.append doc original transformed with
          | error err => rfl
          | ok doc1 => exact ih f2 r1 doc1 (line + 1) (by omega) (by omega)

/-- The loop of `createDocument` on a stream of pairs of data lines followed by the
terminator: it appends the decoded pairs in order and stops at the terminator, with
any fuel above the number of pairs. -/
theorem createDocument_loop_pairs {Row Doc : Type} (ops : DocOps Row Doc) (t : EntriesTable)
    (pairs : List (String × String)) (rows : List (Row × Row)) (after : List String)
    (fault : Option GoError) (doc docEnd : Doc) (line fuel : Nat)
    (hdata : ∀ p ∈ pairs, LineIsEndOfData p.1 = false)
    (hdec : DecodesTo ops t pairs rows)
    (happ : appendAll ops doc rows = .ok docEnd)
    (hfuel : pairs.length < fuel) :
    Validate.createDocument.loop ops t fuel ⟨pairLines pairs ++ "\\." :: after, fault⟩ doc line =
      .ok docEnd := by
  induction pairs generalizing rows doc line fuel with
  | nil =>
    cases rows with
    | cons r rest => simp [DecodesTo] at hdec
    | nil =>
      cases fuel with
      | zero => simp at hfuel
      | succ f =>
        simp only [appendAll, Except.ok.injEq] at happ
        subst happ
        simp [Validate.createDocument.loop, Validate.readRecords, ReadLine, pairLines,
          LineIsEndOfData, GoError.isEOF]
  | cons p rest ih =>
    obtain ⟨l1, l2⟩ := p
    cases rows with
    | nil => simp [DecodesTo] at hdec
    | cons r rows1 =>
      obtain ⟨r1, r2⟩ := r
      obtain ⟨hd1, hd2, hdrest⟩ := hdec
      cases fuel with
      | zero => simp at hfuel
      | succ f =>
        have hl1 : LineIsEndOfData l1 = false := hdata (l1, l2) (List.mem_cons_self _ _)
        simp only [appendAll] at happ
        cases hap : ops.append doc r1 r2 with
        | error e => simp [hap] at happ
        | ok doc1 =>
          simp only [hap] at happ
          have hrec := ih rows1 doc1 (line + 1) f
            (fun q hq => hdata q (List.mem_cons_of_mem _ hq)) hdrest happ
            (by simpa using hfuel)
          simp only [Validate.createDocument.loop, Validate.readRecords, ReadLine, pairLines,
            List.cons_append, hl1, hd1, hd2, hap, Bool.false_eq_true, if_false]
          exact hrec

theorem pairLines_length (pairs : List (String × String)) :
    (pairLines pairs).length = 2 * pairs.length := by
  induction pairs with
  | nil => rfl
  | cons p rest ih =>
    obtain ⟨l1, l2⟩ := p
    simp only [pairLines, List.length_cons, ih]
    omega

theorem DecodesTo_length {Row Doc : Type} (ops : DocOps Row Doc) (t : EntriesTable)
    (pairs : List (String × String)) (rows : List (Row × Row))
    (hdec : DecodesTo ops t pairs rows) : rows.length = pairs.length := by
  induction pairs generalizing rows with
  | nil =>
    cases rows with
    | nil => rfl
    | cons r rest => simp [DecodesTo] at hdec
  | cons p rest ih =>
    obtain ⟨l1, l2⟩ := p
    cases rows with
    | nil => simp [DecodesTo] at hdec
    | cons r rows1 =>
      obtain ⟨r1, r2⟩ := r
      simp only [List.length_cons, ih rows1 hdec.2.2]

/-- C9: on a stream made of k pairs of data lines (no original line being the terminator,
each line decodable, the pairs decoding to `rows`) followed by the end-of-data line and
by any further lines, `Validate.createDocument` returns without error the document
obtained by appending exactly the k decoded pairs, in stream order, to the fresh
document; nothing is appended for the terminator or for what follows it.  The fresh
document exists (the format is known) and accepts the pairs. -/
theorem createDocument_reads_pairs_up_to_terminator {Row Doc : Type} (ops : DocOps Row Doc)
    (config : Config) (getObject : String → Except GoError StoredObject) (t : EntriesTable)
    (pairs : List (String × String)) (rows : List (Row × Row)) (after : List String)
    (fault : Option GoError) (doc0 docEnd : Doc)
    (hdoc : Validate.getDocument ops config t = .ok doc0)
    (hreader : Validate.getReader getObject t =
      .ok ⟨pairLines pairs ++ "\\." :: after, fault⟩)
    (hdata : ∀ p ∈ pairs, LineIsEndOfData p.1 = false)
    (hdec : DecodesTo ops t pairs rows)
    (happ : appendAll ops doc0 rows = .ok docEnd) :
    Validate.createDocument ops config getObject t = .ok docEnd ∧
    rows.length = pairs.length := by
  refine ⟨?_, DecodesTo_length ops t pairs rows hdec⟩
  unfold Validate.createDocument
  simp only [hdoc, hreader]
  apply createDocument_loop_pairs ops t pairs rows after fault doc0 docEnd 0 _ hdata hdec happ
  simp only [List.length_append, List.length_cons, pairLines_length]
  omega

theorem createDocument_reads_pairs_up_to_terminator_witness :
    Validate.createDocument sampleDocOps sampleConfig sampleRunEnv.getObject sampleTable =
      .ok [("1\ta", "1\tA"), ("2\tb", "2\tB")] ∧
    [("1\ta", "1\tA"), ("2\tb", "2\tB")].length = [("1\ta", "1\tA"), ("2\tb", "2\tB")].length :=
  createDocument_reads_pairs_up_to_terminator sampleDocOps sampleConfig sampleRunEnv.getObject
    sampleTable [("1\ta", "1\tA"), ("2\tb", "2\tB")] [("1\ta", "1\tA"), ("2\tb", "2\tB")]
    ["3\tc"] none [] [("1\ta", "1\tA"), ("2\tb", "2\tB")]
    rfl rfl (by decide) ⟨rfl, rfl, rfl, rfl, trivial⟩ rfl

/-! ### C7 -/

theorem GoMap_set_fresh {V : Type} (m : GoMap V) (k : String) (v : V)
    (h : k ∉ GoMap.keys m) : m.set k v = m ++ [(k, v)] := by
  unfold GoMap.set
  rw [(lookup_none_iff m k).mpr h]
  simp

theorem paramsLoop_cons (jm : AnyValue → Except GoError ParamsValue) (k0 : String)
    (v0 : AnyValue) (rest : List (String × AnyValue)) (acc m : GoMap ParamsValue)
    (h : setTransformerParams.paramsLoop jm ((k0, v0) :: rest) acc = .ok m) :
    ∃ enc, encodesTo jm v0 enc ∧
      setTransformerParams.paramsLoop jm rest (acc.set k0 enc) = .ok m := by
  cases v0 with
  | str sv => exact ⟨sv, rfl, by simpa [setTransformerParams.paramsLoop] using h⟩
  | null =>
    simp only [setTransformerParams.paramsLoop] at h
    cases hj : jm .null with
    | error e => simp [hj] at h
    | ok enc => exact ⟨enc, hj, by simpa [hj] using h⟩
  | bool b =>
    simp only [setTransformerParams.paramsLoop] at h
    cases hj : jm (.bool b) with
    | error e => simp [hj] at h
    | ok enc => exact ⟨enc, hj, by simpa [hj] using h⟩
  | int n =>
    simp only [setTransformerParams.paramsLoop] at h
    cases hj : jm (.int n) with
    | error e => simp [hj] at h
    | ok enc => exact ⟨enc, hj, by simpa [hj] using h⟩

/-- The inner loop, run on distinct keys that the map built so far does not hold, adds
exactly those keys, each with the encoding of its value. -/
theorem paramsLoop_ok (jm : AnyValue → Except GoError ParamsValue)
    (ps : List (String × AnyValue)) (acc m : GoMap ParamsValue)
    (hnd : (ps.map Prod.fst).Nodup)
    (hdisj : ∀ k ∈ ps.map Prod.fst, k ∉ GoMap.keys acc) (hwf : GoMap.WF acc)
    (h : setTransformerParams.paramsLoop jm ps acc = .ok m) :
    GoMap.WF m ∧ (∀ k, k ∈ GoMap.keys m ↔ k ∈ GoMap.keys acc ∨ k ∈ ps.map Prod.fst) ∧
    (∀ p ∈ acc, p ∈ m) ∧ (∀ k v, (k, v) ∈ ps → ∃ e, (k, e) ∈ m ∧ encodesTo jm v e) := by
  induction ps generalizing acc with
  | nil =>
    simp only [setTransformerParams.paramsLoop, Except.ok.injEq] at h
    subst h
    simp [hwf]
  | cons p rest ih =>
    obtain ⟨k0, v0⟩ := p
    obtain ⟨enc, henc, hrest⟩ := paramsLoop_cons jm k0 v0 rest acc m h
    have hnd0 : k0 ∉ rest.map Prod.fst ∧ (rest.map Prod.fst).Nodup := by
      simpa using hnd
    have hk0 : k0 ∉ GoMap.keys acc := hdisj k0 (by simp)
    rw [GoMap_set_fresh acc k0 enc hk0] at hrest
    have hkeys1 : GoMap.keys (acc ++ [(k0, enc)]) = GoMap.keys acc ++ [k0] := by
      simp [GoMap.keys]
    have hwf1 : GoMap.WF (acc ++ [(k0, enc)]) := by
      unfold GoMap.WF at hwf ⊢
      rw [List.map_append, List.nodup_append]
      refine ⟨hwf, by simp, ?_⟩
      intro a ha hb
      simp only [List.map_cons, List.map_nil, List.mem_singleton] at hb
      subst hb
      exact hk0 ha
    have hdisj1 : ∀ k ∈ rest.map Prod.fst, k ∉ GoMap.keys (acc ++ [(k0, enc)]) := by
      intro k hk hin
      rw [hkeys1, List.mem_append, List.mem_singleton] at hin
      rcases hin with hin | hin
      · exact hdisj k (List.mem_cons_of_mem _ hk) hin
      · exact hnd0.1 (hin ▸ hk)
    obtain ⟨hwfm, hkeysm, haccm, hvals⟩ := ih (acc ++ [(k0, enc)]) hnd0.2 hdisj1 hwf1 hrest
    refine ⟨hwfm, ?_, ?_, ?_⟩
    · intro k
      rw [hkeysm k, hkeys1, List.mem_append, List.mem_singleton]
      simp only [List.map_cons, List.mem_cons]
      tauto
    · intro q hq
      exact haccm q (List.mem_append_left _ hq)
    · intro k v hkv
      rcases List.mem_cons.mp hkv with heq | hmem
      · cases heq
        exact ⟨enc, haccm (k0, enc) (by simp), henc⟩
      · exact hvals k v hmem

theorem paramsLoop_stored (jm : AnyValue → Except GoError ParamsValue)
    (tmpParams : GoMap AnyValue) (paramsMap : GoMap ParamsValue) (tr : TransformerConfig)
    (hwf : GoMap.WF tmpParams)
    (h : setTransformerParams.paramsLoop jm tmpParams [] = .ok paramsMap) :
    ParamsStored jm tmpParams { tr with Params := paramsMap, MetadataParams := tmpParams } := by
  obtain ⟨hwfm, hkeys, _, hvals⟩ :=
    paramsLoop_ok jm tmpParams [] paramsMap hwf (by simp [GoMap.keys]) (by simp [GoMap.WF]) h
  refine ⟨rfl, hwfm, ?_, ?_⟩
  · intro k
    rw [hkeys k]
    simp [GoMap.keys]
  · intro k v hkv
    obtain ⟨e, he, henc⟩ := hvals k v hkv
    have hget : GoMap.get paramsMap k "" = e := by
      simp [GoMap.get, lookup_of_mem paramsMap hwfm k e he]
    simpa [hget] using henc

theorem transformersLoop_cons (jm : AnyValue → Except GoError ParamsValue) (i : Nat)
    (tmpTr : DummyTransformer) (rest : List DummyTransformer) (j : Nat) (cfg cfgEnd : Config)
    (h : setTransformerParams.transformersLoop jm i (tmpTr :: rest) j cfg = (cfgEnd, none)) :
    ∃ table transformer paramsMap, cfg.Transformation[i]? = some table ∧
      table.Transformers[j]? = some transformer ∧
      setTransformerParams.paramsLoop jm tmpTr.Params [] = .ok paramsMap ∧
      setTransformerParams.transformersLoop jm i rest (j + 1)
        (cfg.assignParams i j table transformer paramsMap tmpTr.Params) = (cfgEnd, none) := by
  unfold setTransformerParams.transformersLoop at h
  cases ht : cfg.Transformation[i]? with
  | none => simp [ht] at h
  | some table =>
    simp only [ht] at h
    cases htr : table.Transformers[j]? with
    | none => simp [htr] at h
    | some transformer =>
      simp only [htr] at h
      cases hp : setTransformerParams.paramsLoop jm tmpTr.Params [] with
      | error e => simp [hp] at h
      | ok paramsMap =>
        simp only [hp] at h
        exact ⟨table, transformer, paramsMap, rfl, htr, rfl, h⟩

/-- The loop over the transformers of table `i`, when it ends without error: the other
tables are untouched, table `i` keeps its length, its transformers outside the range of
the loop are untouched, the ones inside hold the parameters of their counterpart. -/
theorem transformersLoop_ok (jm : AnyValue → Except GoError ParamsValue) (i : Nat)
    (tmps : List DummyTransformer) (j : Nat) (cfg cfgEnd : Config)
    (hwf : ∀ tmpTr ∈ tmps, GoMap.WF tmpTr.Params)
    (h : setTransformerParams.transformersLoop jm i tmps j cfg = (cfgEnd, none)) :
    cfgEnd.Transformation.length = cfg.Transformation.length ∧
    (∀ i2, i2 ≠ i → cfgEnd.Transformation[i2]? = cfg.Transformation[i2]?) ∧
    (∀ table, cfg.Transformation[i]? = some table →
      ∃ tableEnd, cfgEnd.Transformation[i]? = some tableEnd ∧
        tableEnd.Transformers.length = table.Transformers.length ∧
        (∀ j2, (j2 < j ∨ j + tmps.length ≤ j2) →
          tableEnd.Transformers[j2]? = table.Transformers[j2]?) ∧
        (∀ n tmpTr, tmps[n]? = some tmpTr →
          ∃ tr, tableEnd.Transformers[j + n]? = some tr ∧ ParamsStored jm tmpTr.Params tr)) := by
  induction tmps generalizing j cfg with
  | nil =>
    simp only [setTransformerParams.transformersLoop, Prod.mk.injEq, and_true] at h
    subst h
    refine ⟨rfl, fun _ _ => rfl, fun table ht => ⟨table, ht, rfl, fun _ _ => rfl, ?_⟩⟩
    intro n tmpTr hn
    simp at hn
  | cons tmpTr rest ih =>
    obtain ⟨table, transformer, paramsMap, ht, htr, hp, hrest⟩ :=
      transformersLoop_cons jm i tmpTr rest j cfg cfgEnd h
    have hi : i < cfg.Transformation.length := (List.getElem?_eq_some.mp ht).1
    have hj : j < table.Transformers.length := (List.getElem?_eq_some.mp htr).1
    obtain ⟨hlen, hother, hthis⟩ := ih (j + 1) _
      (fun t ht2 => hwf t (List.mem_cons_of_mem _ ht2)) hrest
    simp only [Config.assignParams, List.length_set] at hlen hother hthis
    refine ⟨hlen, ?_, ?_⟩
    · intro i2 hi2
      rw [hother i2 hi2]
      exact List.getElem?_set_ne (Ne.symm hi2)
    · intro table0 ht0
      rw [ht] at ht0
      cases ht0
      obtain ⟨tableEnd, hEnd, hlenEnd, hout, hin⟩ := hthis _ (List.getElem?_set_self hi)
      simp only [List.length_set] at hlenEnd
      refine ⟨tableEnd, hEnd, hlenEnd, ?_, ?_⟩
      · intro j2 hj2
        have hj2ne : j ≠ j2 := by
          simp only [List.length_cons] at hj2
          omega
        rw [hout j2 (by simp only [List.length_cons] at hj2; omega)]
        exact List.getElem?_set_ne hj2ne
      · intro n tmpTr2 hn
        cases n with
        | zero =>
          simp only [List.getElem?_cons_zero, Option.some.injEq] at hn
          subst hn
          refine ⟨_, ?_, paramsLoop_stored jm tmpTr.Params paramsMap transformer
            (hwf tmpTr (List.mem_cons_self _ _)) hp⟩
          rw [Nat.add_zero, hout j (Or.inl (Nat.lt_succ_self j))]
          exact List.getElem?_set_self hj
        | succ n =>
          simp only [List.getElem?_cons_succ] at hn
          obtain ⟨tr, htrEnd, hst⟩ := hin n tmpTr2 hn
          refine ⟨tr, ?_, hst⟩
          rw [← htrEnd]
          congr 1
          omega

theorem tablesLoop_cons (jm : AnyValue → Except GoError ParamsValue) (tmpTable : DummyTable)
    (rest : List DummyTable) (i : Nat) (cfg cfgEnd : Config)
    (h : setTransformerParams.tablesLoop jm (tmpTable :: rest) i cfg = (cfgEnd, none)) :
    ∃ cfg1, setTransformerParams.transformersLoop jm i tmpTable.Transformers 0 cfg = (cfg1, none) ∧
      setTransformerParams.tablesLoop jm rest (i + 1) cfg1 = (cfgEnd, none) := by
  unfold setTransformerParams.tablesLoop at h
  cases ht : setTransformerParams.transformersLoop jm i tmpTable.Transformers 0 cfg with
  | mk cfg1 err =>
    cases err with
    | some e => simp [ht] at h
    | none =>
      simp only [ht] at h
      exact ⟨cfg1, rfl, h⟩

/-- The loop over the tables, when it ends without error: the tables outside its range
are untouched, and every table inside keeps its length and holds, transformer by
transformer, the parameters of its counterpart. -/
theorem tablesLoop_ok (jm : AnyValue → Except GoError ParamsValue) (tbls : List DummyTable)
    (i : Nat) (cfg cfgEnd : Config)
    (hwf : ∀ tmpTable ∈ tbls, ∀ tmpTr ∈ tmpTable.Transformers, GoMap.WF tmpTr.Params)
    (h : setTransformerParams.tablesLoop jm tbls i cfg = (cfgEnd, none)) :
    cfgEnd.Transformation.length = cfg.Transformation.length ∧
    (∀ i2, (i2 < i ∨ i + tbls.length ≤ i2) →
      cfgEnd.Transformation[i2]? = cfg.Transformation[i2]?) ∧
    (∀ n tmpTable, tbls[n]? = some tmpTable →
      ∀ table, cfg.Transformation[i + n]? = some table →
        ∃ tableEnd, cfgEnd.Transformation[i + n]? = some tableEnd ∧
          tableEnd.Transformers.length = table.Transformers.length ∧
          ∀ (m : Nat) (tmpTr : DummyTransformer), tmpTable.Transformers[m]? = some tmpTr →
            ∃ tr, tableEnd.Transformers[m]? = some tr ∧ ParamsStored jm tmpTr.Params tr) := by
  induction tbls generalizing i cfg with
  | nil =>
    simp only [setTransformerParams.tablesLoop, Prod.mk.injEq, and_true] at h
    subst h
    refine ⟨rfl, fun _ _ => rfl, ?_⟩
    intro n tmpTable hn
    simp at hn
  | cons tmpTable rest ih =>
    obtain ⟨cfg1, hfirst, hrest⟩ := tablesLoop_cons jm tmpTable rest i cfg cfgEnd h
    obtain ⟨hlen1, hother1, hthis1⟩ := transformersLoop_ok jm i tmpTable.Transformers 0 cfg cfg1
      (fun t ht => hwf tmpTable (List.mem_cons_self _ _) t ht) hfirst
    obtain ⟨hlen2, hother2, hthis2⟩ := ih (i + 1) cfg1
      (fun t ht => hwf t (List.mem_cons_of_mem _ ht)) hrest
    refine ⟨hlen2.trans hlen1, ?_, ?_⟩
    · intro i2 hi2
      simp only [List.length_cons] at hi2
      rw [hother2 i2 (by omega), hother1 i2 (by omega)]
    · intro n tmpTable2 hn table htable
      cases n with
      | zero =>
        simp only [List.getElem?_cons_zero, Option.some.injEq] at hn
        subst hn
        obtain ⟨tableEnd, hEnd, hlenEnd, _, hin⟩ := hthis1 table htable
        refine ⟨tableEnd, ?_, hlenEnd, ?_⟩
        · rw [Nat.add_zero, hother2 i (Or.inl (Nat.lt_succ_self i))]
          exact hEnd
        · intro m tmpTr hm
          obtain ⟨tr, htr, hst⟩ := hin m tmpTr hm
          exact ⟨tr, by simpa using htr, hst⟩
      | succ n =>
        simp only [List.getElem?_cons_succ] at hn
        have hidx : i + (n + 1) = i + 1 + n := by omega
        rw [hidx] at htable ⊢
        rw [← hother1 (i + 1 + n) (by omega)] at htable
        exact hthis2 n tmpTable2 hn table htable

/-- C7: after a successful call of `setTransformerParams` on a `tmpCfg` (with well-formed
params maps) and a `cfg` of the same shape, the config still has that shape, and every
transformer (table i, transformer j) of the config has `MetadataParams` equal to `tmpCfg`'s
params for (i, j) and a `Params` map whose key set is exactly the key set of those
params, where a string value is bound to its own bytes and any other value to its JSON
encoding. -/
theorem setTransformerParams_preserves_keys (jm : AnyValue → Except GoError ParamsValue)
    (tmpCfg : DummyConfig) (cfg cfgEnd : Config) (hwf : DummyConfig.WF tmpCfg)
    (hshape : SameShape tmpCfg cfg)
    (hok : setTransformerParams jm tmpCfg cfg = (cfgEnd, none)) :
    SameShape tmpCfg cfgEnd ∧
    ∀ (i j : Nat) (tableEnd : DomainTable) (tr : TransformerConfig),
      cfgEnd.Transformation[i]? = some tableEnd → tableEnd.Transformers[j]? = some tr →
      ∃ tmpTable tmpTr, tmpCfg.Transformation[i]? = some tmpTable ∧
        tmpTable.Transformers[j]? = some tmpTr ∧ ParamsStored jm tmpTr.Params tr := by
  obtain ⟨hlen, _, hall⟩ := tablesLoop_ok jm tmpCfg.Transformation 0 cfg cfgEnd
    (fun t ht tr htr => hwf t ht tr htr) hok
  have key : ∀ (i : Nat) (tableEnd : DomainTable), cfgEnd.Transformation[i]? = some tableEnd →
      ∃ tmpTable, tmpCfg.Transformation[i]? = some tmpTable ∧
        tmpTable.Transformers.length = tableEnd.Transformers.length ∧
        ∀ (m : Nat) (tmpTr : DummyTransformer), tmpTable.Transformers[m]? = some tmpTr →
          ∃ tr, tableEnd.Transformers[m]? = some tr ∧ ParamsStored jm tmpTr.Params tr := by
    intro i tableEnd hEnd
    have hi : i < cfgEnd.Transformation.length := (List.getElem?_eq_some.mp hEnd).1
    have hi1 : i < cfg.Transformation.length := hlen ▸ hi
    have hi2 : i < tmpCfg.Transformation.length := hshape.1 ▸ hi1
    have htable := List.getElem?_eq_getElem hi1
    have htmp := List.getElem?_eq_getElem hi2
    obtain ⟨tableEnd2, hEnd2, hlenEnd, hin⟩ :=
      hall i _ htmp _ (by rw [Nat.zero_add]; exact htable)
    rw [Nat.zero_add, hEnd] at hEnd2
    cases hEnd2
    exact ⟨_, htmp, (hshape.2 i _ _ htmp htable).trans hlenEnd.symm, hin⟩
  refine ⟨⟨hshape.1.trans hlen.symm, ?_⟩, ?_⟩
  · intro i tmpTable tableEnd htmp hEnd
    obtain ⟨tmpTable2, htmp2, hl, _⟩ := key i tableEnd hEnd
    rw [htmp] at htmp2
    cases htmp2
    exact hl
  · intro i j tableEnd tr hEnd htr
    obtain ⟨tmpTable, htmp, hl, hin⟩ := key i tableEnd hEnd
    have hj : j < tableEnd.Transformers.length := (List.getElem?_eq_some.mp htr).1
    have hj2 : j < tmpTable.Transformers.length := hl ▸ hj
    obtain ⟨tr2, htr2, hst⟩ := hin j _ (List.getElem?_eq_getElem hj2)
    rw [htr] at htr2
    cases htr2
    exact ⟨tmpTable, _, htmp, List.getElem?_eq_getElem hj2, hst⟩

theorem setTransformerParams_preserves_keys_witness :
    ∃ tmpTable tmpTr, sampleDummyConfig.Transformation[0]? = some tmpTable ∧
      tmpTable.Transformers[0]? = some tmpTr ∧
      ParamsStored sampleJsonMarshal tmpTr.Params
        ⟨"Replace", [("Column", "name"), ("keepNull", "false")],
          [("Column", .str "name"), ("keepNull", .bool false)]⟩ :=
  (setTransformerParams_preserves_keys sampleJsonMarshal sampleDummyConfig sampleLoadedConfig
    ⟨[⟨"public", "t", [⟨"Replace", [("Column", "name"), ("keepNull", "false")],
        [("Column", .str "name"), ("keepNull", .bool false)]⟩]⟩], sampleValidateConfig⟩
    (by
      intro tmpTable ht tmpTr htr
      simp only [sampleDummyConfig, List.mem_singleton] at ht
      subst ht
      simp only [List.mem_singleton] at htr
      subst htr
      decide)
    ⟨rfl, by
      intro i tmpTable table h1 h2
      cases i with
      | zero =>
        simp only [sampleDummyConfig, sampleLoadedConfig, List.getElem?_cons_zero,
          Option.some.injEq] at h1 h2
        subst h1
        subst h2
        rfl
      | succ n => simp [sampleDummyConfig] at h1⟩
    (by decide)).2 0 0 _ _ rfl rfl

/-! ### C10 -/

theorem mem_allEdges_iff (g : ComponentGraph) (e : Edge) :
    e ∈ g.allEdges ↔ ∃ p ∈ g, e ∈ p.2 := by
  induction g with
  | nil => simp [ComponentGraph.allEdges]
  | cons p rest ih =>
    obtain ⟨v, es⟩ := p
    simp only [ComponentGraph.allEdges, List.mem_append, ih, List.mem_cons]
    constructor
    · rintro (h | ⟨q, hq, he⟩)
      · exact ⟨(v, es), Or.inl rfl, h⟩
      · exact ⟨q, Or.inr hq, he⟩
    · rintro ⟨q, (rfl | hq), he⟩
      · exact Or.inl he
      · exact Or.inr ⟨q, hq, he⟩

theorem graph_lookup_of_mem (g : ComponentGraph) (hnd : (g.map Prod.fst).Nodup) (v : Nat)
    (es : List Edge) (h : (v, es) ∈ g) : g.lookup v = some es := by
  induction g with
  | nil => simp at h
  | cons p rest ih =>
    obtain ⟨v0, es0⟩ := p
    have hnd0 : v0 ∉ rest.map Prod.fst ∧ (rest.map Prod.fst).Nodup := by simpa using hnd
    rcases List.mem_cons.mp h with heq | hmem
    · cases heq
      simp [List.lookup]
    · have hne : v ≠ v0 := by
        intro hv
        apply hnd0.1
        rw [← hv]
        exact List.mem_map_of_mem Prod.fst hmem
      have hbeq : (v == v0) = false := by simpa using hne
      simp only [List.lookup, hbeq]
      exact ih hnd0.2 hmem

theorem graph_mem_of_lookup (g : ComponentGraph) (v : Nat) (es : List Edge)
    (h : g.lookup v = some es) : (v, es) ∈ g := by
  induction g with
  | nil => simp at h
  | cons p rest ih =>
    obtain ⟨v0, es0⟩ := p
    by_cases hv : v = v0
    · subst hv
      simp [List.lookup] at h
      simp [h]
    · have hbeq : (v == v0) = false := by simpa using hv
      simp only [List.lookup, hbeq] at h
      exact List.mem_cons_of_mem _ (ih h)

/-- In a well-formed graph the edges listed under `v` are the edges that leave `v`. -/
theorem mem_outEdges_iff (g : ComponentGraph) (hwf : g.WF) (v : Nat) (e : Edge) :
    e ∈ g.outEdges v ↔ e ∈ g.allEdges ∧ e.fromIdx = v := by
  unfold ComponentGraph.outEdges
  constructor
  · intro h
    cases hl : g.lookup v with
    | none => simp [hl] at h
    | some es =>
      simp only [hl, Option.getD_some] at h
      have hmem := graph_mem_of_lookup g v es hl
      exact ⟨(mem_allEdges_iff g e).mpr ⟨(v, es), hmem, h⟩, (hwf.2.1 (v, es) hmem e h).1⟩
  · rintro ⟨hall, hfrom⟩
    obtain ⟨p, hp, he⟩ := (mem_allEdges_iff g e).mp hall
    obtain ⟨v0, es⟩ := p
    have hv : e.fromIdx = v0 := (hwf.2.1 (v0, es) hp e he).1
    have hv2 : v0 = v := hv.symm.trans hfrom
    subst hv2
    rw [graph_lookup_of_mem g hwf.1 v0 es hp]
    exact he

theorem idx_eq_toIdx (g : ComponentGraph) (hwf : g.WF) (e : Edge) (h : e ∈ g.allEdges) :
    e.idx = e.toIdx := by
  obtain ⟨p, hp, he⟩ := (mem_allEdges_iff g e).mp h
  exact (hwf.2.1 p hp e he).2

/-- The search returns exactly the extensions of the path by edges that close a cycle,
within its depth. -/
theorem dfs_mem_iff (g : ComponentGraph) (s : Nat) (fuel v : Nat) (path c : List Edge) :
    c ∈ findCycles.dfs g s fuel v path ↔
      ∃ rest, c = path ++ rest ∧ rest.length ≤ fuel ∧
        Closing g s (path.map Edge.idx) v rest := by
  induction fuel generalizing v path with
  | zero =>
    simp only [findCycles.dfs, List.not_mem_nil, false_iff]
    rintro ⟨rest, _, hlen, hcl⟩
    cases rest with
    | nil => exact hcl
    | cons e r => simp at hlen
  | succ fuel ih =>
    simp only [findCycles.dfs, List.mem_flatMap]
    constructor
    · rintro ⟨e, he, hc⟩
      by_cases hs : e.idx = s
      · simp only [hs, if_true, List.mem_singleton] at hc
        exact ⟨[e], hc, by simp, he, Or.inl ⟨rfl, hs⟩⟩
      · by_cases hvis : e.idx ∈ path.map Edge.idx
        · simp [hs, hvis] at hc
        · simp only [hs, hvis, if_false] at hc
          obtain ⟨rest, hrest, hlen, hcl⟩ := (ih e.idx (path ++ [e]) ).mp hc
          refine ⟨e :: rest, by simp [hrest], by simp [hlen], he, Or.inr ⟨?_, hs, hvis, ?_⟩⟩
          · intro hnil
            subst hnil
            exact hcl
          · simpa using hcl
    · rintro ⟨rest, hc, hlen, hcl⟩
      cases rest with
      | nil => exact absurd hcl (by simp [Closing])
      | cons e r =>
        obtain ⟨he, hcase⟩ := hcl
        refine ⟨e, he, ?_⟩
        rcases hcase with ⟨hnil, hs⟩ | ⟨hne, hs, hvis, hcl2⟩
        · subst hnil
          simp [hs, hc]
        · simp only [hs, hvis, if_false]
          refine (ih e.idx (path ++ [e])).mpr ⟨r, by simp [hc], ?_, by simpa using hcl2⟩
          simp only [List.length_cons] at hlen
          omega

theorem isPath_end_mem (u w : Nat) (p : List Edge) (h : IsPath u p w) (hne : p ≠ []) :
    w ∈ p.map Edge.toIdx := by
  induction p generalizing u with
  | nil => exact absurd rfl hne
  | cons e rest ih =>
    obtain ⟨_, hrest⟩ := h
    cases rest with
    | nil =>
      simp only [IsPath] at hrest
      simp [hrest]
    | cons e2 r =>
      exact List.mem_cons_of_mem _ (ih e.toIdx hrest (by simp))

/-- What the search follows from `v`, with the start vertex not among the visited ones,
are the non-empty paths of graph edges from `v` to the start that enter no vertex twice
and no visited vertex. -/
theorem closing_iff (g : ComponentGraph) (hwf : g.WF) (s : Nat) (rest : List Edge)
    (visited : List Nat) (v : Nat) (hs : s ∉ visited) :
    Closing g s visited v rest ↔
      rest ≠ [] ∧ (∀ e ∈ rest, e ∈ g.allEdges) ∧ IsPath v rest s ∧
        (rest.map Edge.toIdx).Nodup ∧ ∀ x ∈ visited, x ∉ rest.map Edge.toIdx := by
  induction rest generalizing visited v with
  | nil => simp [Closing]
  | cons e r ih =>
    simp only [Closing, mem_outEdges_iff g hwf]
    constructor
    · rintro ⟨⟨hall, hfrom⟩, hcase⟩
      have hidx := idx_eq_toIdx g hwf e hall
      rcases hcase with ⟨hnil, hes⟩ | ⟨hne, hes, hvis, hcl⟩
      · subst hnil
        refine ⟨by simp, by simpa using hall, ⟨hfrom, ?_⟩, by simp, ?_⟩
        · simp only [IsPath]
          rw [← hidx, hes]
        · intro x hx
          simp only [List.map_cons, List.map_nil, List.mem_singleton]
          intro hxe
          apply hs
          rw [← hes, hidx, ← hxe]
          exact hx
      · have hs2 : s ∉ visited ++ [e.idx] := by
          simp only [List.mem_append, List.mem_singleton, not_or]
          exact ⟨hs, fun h => hes h.symm⟩
        obtain ⟨_, hmem, hpath, hnd, hdisj⟩ := (ih (visited ++ [e.idx]) e.idx hs2).mp hcl
        refine ⟨by simp, ?_, ⟨hfrom, hidx ▸ hpath⟩, ?_, ?_⟩
        · intro e2 he2
          rcases List.mem_cons.mp he2 with rfl | h2
          · exact hall
          · exact hmem e2 h2
        · simp only [List.map_cons, List.nodup_cons]
          exact ⟨hidx ▸ hdisj e.idx (by simp), hnd⟩
        · intro x hx
          simp only [List.map_cons, List.mem_cons, not_or]
          refine ⟨?_, hdisj x (List.mem_append_left _ hx)⟩
          intro hxe
          apply hvis
          rw [hidx, ← hxe]
          exact hx
    · rintro ⟨_, hmem, ⟨hfrom, hpath⟩, hnd, hdisj⟩
      have hall : e ∈ g.allEdges := hmem e (List.mem_cons_self _ _)
      have hidx := idx_eq_toIdx g hwf e hall
      simp only [List.map_cons, List.nodup_cons] at hnd
      refine ⟨⟨hall, hfrom⟩, ?_⟩
      by_cases hnil : r = []
      · subst hnil
        simp only [IsPath] at hpath
        exact Or.inl ⟨rfl, hidx.trans hpath⟩
      · have hend := isPath_end_mem e.toIdx s r hpath hnil
        have hes : e.idx ≠ s := by
          intro h
          apply hnd.1
          rw [← hidx, h]
          exact hend
        have hvis : e.idx ∉ visited := by
          intro h
          exact hdisj e.idx h (by simp [hidx])
        have hs2 : s ∉ visited ++ [e.idx] := by
          simp only [List.mem_append, List.mem_singleton, not_or]
          exact ⟨hs, fun h => hes h.symm⟩
        refine Or.inr ⟨hnil, hes, hvis, (ih (visited ++ [e.idx]) e.idx hs2).mpr
          ⟨hnil, fun e2 he2 => hmem e2 (List.mem_cons_of_mem _ he2), hidx ▸ hpath, hnd.2, ?_⟩⟩
        intro x hx
        rcases List.mem_append.mp hx with hx1 | hx1
        · intro hin
          exact hdisj x hx1 (List.mem_cons_of_mem _ hin)
        · simp only [List.mem_singleton] at hx1
          rw [hx1, hidx]
          exact hnd.1

theorem simpleCircuit_length_le (g : ComponentGraph) (c : List Edge)
    (h : IsSimpleCircuit g c) : c.length ≤ g.allEdges.length :=
  (List.subperm_of_subset (List.Nodup.of_map Edge.toIdx h.2.2.2) h.2.1).length_le

theorem mem_found_iff (g : ComponentGraph) (hwf : g.WF) (vs : List Nat) (c : List Edge) :
    c ∈ findCycles.found g vs ↔
      ∃ s ∈ vs, c.length ≤ g.allEdges.length ∧ c ≠ [] ∧ (∀ e ∈ c, e ∈ g.allEdges) ∧
        IsPath s c s ∧ (c.map Edge.toIdx).Nodup := by
  induction vs with
  | nil => simp [findCycles.found]
  | cons v rest ih =>
    simp only [findCycles.found, List.mem_append, ih, dfs_mem_iff, List.nil_append,
      List.map_nil, exists_eq_left', List.mem_cons, exists_eq_or_imp]
    rw [closing_iff g hwf v c [] v (by simp)]
    simp

/-- The search from every vertex of a well-formed graph finds exactly the simple circuits
of the graph (each one from each of its vertices). -/
theorem mem_found_iff_simpleCircuit (g : ComponentGraph) (hwf : g.WF) (c : List Edge) :
    c ∈ findCycles.found g (g.map Prod.fst) ↔ IsSimpleCircuit g c := by
  rw [mem_found_iff g hwf]
  constructor
  · rintro ⟨s, _, _, hne, hmem, hpath, hnd⟩
    exact ⟨hne, hmem, ⟨s, hpath⟩, hnd⟩
  · intro h
    obtain ⟨hne, hmem, ⟨s, hpath⟩, hnd⟩ := h
    refine ⟨s, ?_, simpleCircuit_length_le g c ⟨hne, hmem, ⟨s, hpath⟩, hnd⟩, hne, hmem,
      hpath, hnd⟩
    cases c with
    | nil => exact absurd rfl hne
    | cons e r =>
      obtain ⟨q, hq, he⟩ := (mem_allEdges_iff g e).mp (hmem e (List.mem_cons_self _ _))
      have hfrom : e.fromIdx = q.1 := (hwf.2.1 q hq e he).1
      rw [← hpath.1, hfrom]
      exact List.mem_map_of_mem Prod.fst hq

/-- The fold of `addCycle` keeps `cyclesIdents` equal to the identifiers of the kept
cycles, without repetition; it keeps only cycles it was given, and the identifier of
every cycle it was given is among the kept ones. -/
theorem foldl_addCycle (l : List (List Edge)) (c0 : Component)
    (hinv : c0.cyclesIdents = c0.cycles.map getCycleIdent) (hnd : c0.cyclesIdents.Nodup) :
    (l.foldl Component.addCycle c0).cyclesIdents =
      (l.foldl Component.addCycle c0).cycles.map getCycleIdent ∧
    (l.foldl Component.addCycle c0).cyclesIdents.Nodup ∧
    (∀ x ∈ (l.foldl Component.addCycle c0).cycles, x ∈ c0.cycles ∨ x ∈ l) ∧
    (∀ x, x ∈ c0.cycles ∨ x ∈ l →
      getCycleIdent x ∈ (l.foldl Component.addCycle c0).cyclesIdents) := by
  induction l generalizing c0 with
  | nil =>
    refine ⟨hinv, hnd, fun x hx => Or.inl hx, ?_⟩
    rintro x (hx | hx)
    · simp only [List.foldl_nil]
      rw [hinv]
      exact List.mem_map_of_mem _ hx
    · simp at hx
  | cons y rest ih =>
    simp only [List.foldl_cons]
    by_cases hy : getCycleIdent y ∈ c0.cyclesIdents
    · have hadd : c0.addCycle y = c0 := by simp [Component.addCycle, hy]
      rw [hadd]
      obtain ⟨h1, h2, h3, h4⟩ := ih c0 hinv hnd
      refine ⟨h1, h2, ?_, ?_⟩
      · intro x hx
        rcases h3 x hx with h | h
        · exact Or.inl h
        · exact Or.inr (List.mem_cons_of_mem _ h)
      · rintro x (hx | hx)
        · exact h4 x (Or.inl hx)
        · rcases List.mem_cons.mp hx with rfl | hx2
          · rw [hinv] at hy
            obtain ⟨z, hz, hzy⟩ := List.mem_map.mp hy
            rw [← hzy]
            exact h4 z (Or.inl hz)
          · exact h4 x (Or.inr hx2)
    · have hadd : c0.addCycle y =
          ⟨c0.componentGraph, c0.cycles ++ [y], c0.cyclesIdents ++ [getCycleIdent y]⟩ := by
        simp [Component.addCycle, hy]
      rw [hadd]
      obtain ⟨h1, h2, h3, h4⟩ := ih
        ⟨c0.componentGraph, c0.cycles ++ [y], c0.cyclesIdents ++ [getCycleIdent y]⟩
        (by simp [hinv])
        (by
          rw [List.nodup_append]
          refine ⟨hnd, by simp, ?_⟩
          intro a ha hb
          simp only [List.mem_singleton] at hb
          subst hb
          exact hy ha)
      refine ⟨h1, h2, ?_, ?_⟩
      · intro x hx
        rcases h3 x hx with h | h
        · rcases List.mem_append.mp h with h5 | h5
          · exact Or.inl h5
          · simp only [List.mem_singleton] at h5
            exact Or.inr (h5 ▸ List.mem_cons_self _ _)
        · exact Or.inr (List.mem_cons_of_mem _ h)
      · rintro x (hx | hx)
        · exact h4 x (Or.inl (List.mem_append_left _ hx))
        · rcases List.mem_cons.mp hx with rfl | hx2
          · exact h4 x (Or.inl (by simp))
          · exact h4 x (Or.inr hx2)

theorem isPath_append (u w : Nat) (p q : List Edge) :
    IsPath u (p ++ q) w ↔ ∃ m, IsPath u p m ∧ IsPath m q w := by
  induction p generalizing u with
  | nil => simp [IsPath]
  | cons e rest ih =>
    show (e.fromIdx = u ∧ IsPath e.toIdx (rest ++ q) w) ↔
      ∃ m, (e.fromIdx = u ∧ IsPath e.toIdx rest m) ∧ IsPath m q w
    rw [ih]
    constructor
    · rintro ⟨h, m, h1, h2⟩
      exact ⟨m, ⟨h, h1⟩, h2⟩
    · rintro ⟨m, ⟨h, h1⟩, h2⟩
      exact ⟨h, m, h1, h2⟩

theorem isPath_from_to (u w : Nat) (p : List Edge) (h : IsPath u p w) :
    p.map Edge.fromIdx ++ [w] = u :: p.map Edge.toIdx := by
  induction p generalizing u with
  | nil =>
    simp only [IsPath] at h
    simp [h]
  | cons e rest ih =>
    obtain ⟨hfrom, hrest⟩ := h
    simp only [List.map_cons, List.cons_append, ih e.toIdx hrest, hfrom]

/-- On a closed path the vertices left are the vertices entered. -/
theorem closed_from_perm_to (s : Nat) (c : List Edge) (h : IsPath s c s) :
    (c.map Edge.fromIdx).Perm (c.map Edge.toIdx) := by
  have h1 := isPath_from_to s s c h
  have h2 : (s :: c.map Edge.fromIdx).Perm (s :: c.map Edge.toIdx) := by
    rw [← h1]
    exact (List.perm_append_singleton s _).symm
  exact h2.cons_inv

/-- Two paths of the same length from the same vertex, over edges among which no two
leave the same vertex, are the same path. -/
theorem path_unique (S : List Edge)
    (hinj : ∀ a ∈ S, ∀ b ∈ S, a.fromIdx = b.fromIdx → a = b)
    (p q : List Edge) (u w1 w2 : Nat) (hp : IsPath u p w1) (hq : IsPath u q w2)
    (hpS : ∀ e ∈ p, e ∈ S) (hqS : ∀ e ∈ q, e ∈ S) (hlen : p.length = q.length) : p = q := by
  induction p generalizing u q with
  | nil =>
    cases q with
    | nil => rfl
    | cons b r => simp at hlen
  | cons a r ih =>
    cases q with
    | nil => simp at hlen
    | cons b r2 =>
      obtain ⟨ha, hpr⟩ := hp
      obtain ⟨hb, hqr⟩ := hq
      have hab : a = b := hinj a (hpS a (List.mem_cons_self _ _)) b
        (hqS b (List.mem_cons_self _ _)) (ha.trans hb.symm)
      subst hab
      rw [ih r2 a.toIdx hpr hqr (fun e he => hpS e (List.mem_cons_of_mem _ he))
        (fun e he => hqS e (List.mem_cons_of_mem _ he)) (by simpa using hlen)]

/-- Two simple circuits that use the same edges are rotations of each other. -/
theorem rotated_of_same_edges (g : ComponentGraph) (c1 c2 : List Edge)
    (h1 : IsSimpleCircuit g c1) (h2 : IsSimpleCircuit g c2)
    (hsame : ∀ e, e ∈ c1 ↔ e ∈ c2) : c1.IsRotated c2 := by
  obtain ⟨hne1, _, ⟨s1, hp1⟩, hnd1⟩ := h1
  obtain ⟨hne2, _, ⟨s2, hp2⟩, hnd2⟩ := h2
  cases c2 with
  | nil => exact absurd rfl hne2
  | cons e r2 =>
    have he1 : e ∈ c1 := (hsame e).mpr (List.mem_cons_self _ _)
    obtain ⟨l, r, hsplit⟩ := List.append_of_mem he1
    subst hsplit
    obtain ⟨m, hl, hr⟩ := (isPath_append s1 s1 l (e :: r)).mp hp1
    have hrot : IsPath m (e :: r ++ l) m := (isPath_append m m (e :: r) l).mpr ⟨s1, hr, hl⟩
    have hm : s2 = m := hp2.1.symm.trans hr.1
    subst hm
    have hfromnd : ((e :: r2).map Edge.fromIdx).Nodup :=
      (closed_from_perm_to s2 (e :: r2) hp2).nodup_iff.mpr hnd2
    have hinj := List.inj_on_of_nodup_map hfromnd
    have hperm : (l ++ e :: r).Perm (e :: r2) :=
      (List.perm_ext_iff_of_nodup (List.Nodup.of_map _ hnd1) (List.Nodup.of_map _ hnd2)).mpr hsame
    have hlen : (e :: r ++ l).length = (e :: r2).length := by
      rw [← hperm.length_eq]
      simp only [List.length_append, List.length_cons]
      omega
    have heq : e :: r ++ l = e :: r2 := by
      apply path_unique (e :: r2) (fun a ha b hb hab => hinj ha hb hab) _ _ s2 s2 s2 hrot hp2
        _ (fun x hx => hx) hlen
      intro x hx
      apply (hsame x).mp
      have hx2 : x ∈ e :: r ∨ x ∈ l := List.mem_append.mp hx
      exact List.mem_append.mpr (hx2.symm)
    have hr1 : (l ++ e :: r).IsRotated (e :: r ++ l) := List.isRotated_append
    rw [← heq]
    exact hr1

theorem getCycleIdent_perm (c1 c2 : List Edge) (h : c1.Perm c2) :
    getCycleIdent c1 = getCycleIdent c2 := by
  unfold getCycleIdent
  apply List.eq_of_perm_of_sorted (r := fun a b : Nat => a ≤ b)
  · exact ((List.perm_insertionSort _ _).trans (h.map Edge.id)).trans
      (List.perm_insertionSort _ _).symm
  · exact List.sorted_insertionSort _ _
  · exact List.sorted_insertionSort _ _

/-- In a well-formed graph two simple circuits have the same identifier exactly when they
are rotations of each other. -/
theorem ident_eq_iff_rotated (g : ComponentGraph) (hwf : g.WF) (c1 c2 : List Edge)
    (h1 : IsSimpleCircuit g c1) (h2 : IsSimpleCircuit g c2) :
    getCycleIdent c1 = getCycleIdent c2 ↔ c1.IsRotated c2 := by
  constructor
  · intro hid
    have hperm : (c1.map Edge.id).Perm (c2.map Edge.id) := by
      have ha := List.perm_insertionSort (fun a b : Nat => a ≤ b) (c1.map Edge.id)
      have hb := List.perm_insertionSort (fun a b : Nat => a ≤ b) (c2.map Edge.id)
      unfold getCycleIdent at hid
      exact (ha.symm.trans (hid ▸ List.Perm.refl _)).trans hb
    have hinj := List.inj_on_of_nodup_map hwf.2.2
    have key : ∀ (a b : List Edge), (∀ e ∈ a, e ∈ g.allEdges) → (∀ e ∈ b, e ∈ g.allEdges) →
        (a.map Edge.id).Perm (b.map Edge.id) → ∀ e, e ∈ a → e ∈ b := by
      intro a b ha hb hab e he
      have hid2 : e.id ∈ b.map Edge.id := hab.mem_iff.mp (List.mem_map_of_mem _ he)
      obtain ⟨e2, he2, hide⟩ := List.mem_map.mp hid2
      have : e2 = e := hinj (hb e2 he2) (ha e he) hide
      exact this ▸ he2
    exact rotated_of_same_edges g c1 c2 h1 h2
      (fun e => ⟨key c1 c2 h1.2.1 h2.2.1 hperm e, key c2 c1 h2.2.1 h1.2.1 hperm.symm e⟩)
  · intro hrot
    exact getCycleIdent_perm c1 c2 hrot.perm

/-- C10: for every component graph (a map from vertices to the edges that leave them,
with distinct edge ids), `Component.findCycles`, run on a fresh component, leaves in
`cycles` exactly one entry per simple circuit of the graph up to rotation: every entry
is a simple circuit, every simple circuit has a rotation among the entries, and no two
entries are rotations of each other.  Two simple circuits are rotations of each other
exactly when they use the same edges, so circuits through different parallel edges are
distinct. -/
theorem findCycles_one_entry_per_simple_circuit (g : ComponentGraph) (hwf : g.WF) :
    (∀ c ∈ (Component.findCycles ⟨g, [], []⟩).cycles, IsSimpleCircuit g c) ∧
    (∀ c, IsSimpleCircuit g c →
      ∃ c2 ∈ (Component.findCycles ⟨g, [], []⟩).cycles, c2.IsRotated c) ∧
    (Component.findCycles ⟨g, [], []⟩).cycles.Pairwise (fun a b => ¬ a.IsRotated b) ∧
    (∀ c1 c2, IsSimpleCircuit g c1 → IsSimpleCircuit g c2 →
      (c1.IsRotated c2 ↔ ∀ e, e ∈ c1 ↔ e ∈ c2)) := by
  obtain ⟨hids, hnd, hsub, hall⟩ :=
    foldl_addCycle (findCycles.found g (g.map Prod.fst)) ⟨g, [], []⟩ rfl List.nodup_nil
  have hsound : ∀ c ∈ (Component.findCycles ⟨g, [], []⟩).cycles, IsSimpleCircuit g c := by
    intro c hc
    rcases hsub c hc with h | h
    · simp at h
    · exact (mem_found_iff_simpleCircuit g hwf c).mp h
  refine ⟨hsound, ?_, ?_, ?_⟩
  · intro c hc
    have hid := hall c (Or.inr ((mem_found_iff_simpleCircuit g hwf c).mpr hc))
    rw [hids] at hid
    obtain ⟨c2, hc2, hident⟩ := List.mem_map.mp hid
    exact ⟨c2, hc2, (ident_eq_iff_rotated g hwf c2 c (hsound c2 hc2) hc).mp hident⟩
  · rw [hids] at hnd
    have hpair : (Component.findCycles ⟨g, [], []⟩).cycles.Pairwise
        (fun a b => getCycleIdent a ≠ getCycleIdent b) := List.pairwise_map.mp hnd
    exact hpair.imp (fun hne hrot => hne (getCycleIdent_perm _ _ hrot.perm))
  · intro c1 c2 h1 h2
    exact ⟨fun hrot e => hrot.perm.mem_iff, rotated_of_same_edges g c1 c2 h1 h2⟩

set_option maxRecDepth 100000 in
theorem findCycles_one_entry_per_simple_circuit_witness :
    ((Component.findCycles ⟨testGraph1, [], []⟩).cycles.length = 4 ∧
     (Component.findCycles ⟨testGraph2, [], []⟩).cycles.length = 2) ∧
    (Component.findCycles ⟨testGraph1, [], []⟩).cycles.Pairwise
      (fun a b => ¬ a.IsRotated b) :=
  ⟨⟨by decide, by decide⟩,
   (findCycles_one_entry_per_simple_circuit testGraph1 (by decide)).2.2.1⟩

/-! ### C11 -/

/-- C11: `SequenceRestorer.Execute`, on an entry with non-nil Namespace and Tag and
whatever the connection answers, begins exactly one transaction, and Begin is its first
call.  When Begin fails nothing else is called and the error is returned.  When Begin
succeeds the calls are, in this order: Begin, then Rollback alone when Defn is nil (no
statement is executed); Begin, the execution of Defn, then Rollback when that execution
fails; Begin, the execution of Defn, then Commit when it succeeds.  So exactly one of
Rollback and Commit is called, last, on the transaction that was begun; the rollback
paths return the wrapped error of `execute`; the commit path returns nil exactly when
Commit succeeds, and `Execute` returns nil in no other case. -/
theorem SequenceRestorer_Execute_own_transaction (ops : ConnOps) (entry : TocEntry)
    (hns : entry.Namespace ≠ none) (htag : entry.Tag ≠ none) :
    (SequenceRestorer.Execute ops entry).calls.count .begin = 1 ∧
    (SequenceRestorer.Execute ops entry).calls.head? = some .begin ∧
    (ops.begin ≠ none →
      (SequenceRestorer.Execute ops entry).calls = [.begin] ∧
      (SequenceRestorer.Execute ops entry).err ≠ none) ∧
    (ops.begin = none →
      (SequenceRestorer.Execute ops entry).calls.count .rollback +
        (SequenceRestorer.Execute ops entry).calls.count .commit = 1 ∧
      (entry.Defn = none →
        (SequenceRestorer.Execute ops entry).calls = [.begin, .rollback] ∧
        (SequenceRestorer.Execute ops entry).err =
          some (.wrap "unable to restore sequence"
            (.text "received nil pointer intead of sequence"))) ∧
      (∀ defn e, entry.Defn = some defn → ops.exec defn = some e →
        (SequenceRestorer.Execute ops entry).calls = [.begin, .exec defn, .rollback] ∧
        (SequenceRestorer.Execute ops entry).err =
          some (.wrap "unable to restore sequence"
            (.wrap "unable to apply sequence set val" e))) ∧
      (∀ defn, entry.Defn = some defn → ops.exec defn = none →
        (SequenceRestorer.Execute ops entry).calls = [.begin, .exec defn, .commit] ∧
        ((SequenceRestorer.Execute ops entry).err = none ↔ ops.commit = none))) ∧
    (entry.Defn = none → ∀ sql, TxCall.exec sql ∉ (SequenceRestorer.Execute ops entry).calls) ∧
    ((SequenceRestorer.Execute ops entry).err = none →
      ops.begin = none ∧ ops.commit = none ∧
      ∃ defn, entry.Defn = some defn ∧ ops.exec defn = none ∧
        (SequenceRestorer.Execute ops entry).calls = [.begin, .exec defn, .commit]) := by
  obtain ⟨ns, tag, defn⟩ := entry
  cases ns with
  | none => exact absurd rfl hns
  | some ns =>
    cases tag with
    | none => exact absurd rfl htag
    | some tag =>
      cases hb : ops.begin with
      | some e => simp [SequenceRestorer.Execute, SequenceRestorer.DebugInfo, hb]
      | none =>
        cases defn with
        | none =>
          cases hr : ops.rollback <;>
            simp [SequenceRestorer.Execute, SequenceRestorer.execute,
              SequenceRestorer.DebugInfo, hb, hr]
        | some defn =>
          cases he : ops.exec defn with
          | some e =>
            have hsame : ∀ (d : String) (e1 : GoError), defn = d → ops.exec d = some e1 →
                defn = d ∧ e = e1 := by
              intro d e1 hd hx
              subst hd
              rw [he] at hx
              exact ⟨rfl, Option.some.inj hx⟩
            cases hr : ops.rollback <;>
              simp [SequenceRestorer.Execute, SequenceRestorer.execute,
                SequenceRestorer.DebugInfo, hb, hr, he] <;> exact hsame
          | none =>
            have hnone : ∀ (d : String) (e1 : GoError), defn = d → ¬ ops.exec d = some e1 := by
              intro d e1 hd hx
              subst hd
              rw [he] at hx
              cases hx
            cases hc : ops.commit <;>
              simp [SequenceRestorer.Execute, SequenceRestorer.execute,
                SequenceRestorer.DebugInfo, hb, hc, he] <;> exact hnone

theorem SequenceRestorer_Execute_own_transaction_witness :
    ((SequenceRestorer.Execute ⟨none, fun _ => none, none, none⟩
        ⟨some "public", some "seq", some "SELECT setval"⟩).calls =
        [.begin, .exec "SELECT setval", .commit] ∧
      ((SequenceRestorer.Execute ⟨none, fun _ => none, none, none⟩
        ⟨some "public", some "seq", some "SELECT setval"⟩).err = none ↔
        (none : Option GoError) = none)) ∧
    ((SequenceRestorer.Execute ⟨none, fun _ => some (.text "bad statement"), none, none⟩
        ⟨some "public", some "seq", some "SELECT setval"⟩).calls =
        [.begin, .exec "SELECT setval", .rollback] ∧
      (SequenceRestorer.Execute ⟨none, fun _ => some (.text "bad statement"), none, none⟩
        ⟨some "public", some "seq", some "SELECT setval"⟩).err =
        some (.wrap "unable to restore sequence"
          (.wrap "unable to apply sequence set val" (.text "bad statement")))) ∧
    ((SequenceRestorer.Execute ⟨none, fun _ => none, none, none⟩
        ⟨some "public", some "seq", none⟩).calls = [.begin, .rollback] ∧
      (SequenceRestorer.Execute ⟨none, fun _ => none, none, none⟩
        ⟨some "public", some "seq", none⟩).err =
        some (.wrap "unable to restore sequence"
          (.text "received nil pointer intead of sequence"))) :=
  ⟨(SequenceRestorer_Execute_own_transaction ⟨none, fun _ => none, none, none⟩
      ⟨some "public", some "seq", some "SELECT setval"⟩ (by decide) (by decide)).2.2.2.1
      rfl |>.2.2.2 "SELECT setval" rfl rfl,
   (SequenceRestorer_Execute_own_transaction
      ⟨none, fun _ => some (.text "bad statement"), none, none⟩
      ⟨some "public", some "seq", some "SELECT setval"⟩ (by decide) (by decide)).2.2.2.1
      rfl |>.2.2.1 "SELECT setval" (.text "bad statement") rfl rfl,
   (SequenceRestorer_Execute_own_transaction ⟨none, fun _ => none, none, none⟩
      ⟨some "public", some "seq", none⟩ (by decide) (by decide)).2.2.2.1
      rfl |>.2.1 rfl⟩

/-! ### C12 -/

/-- C12 (the code at the failing input): with `validate.tables = ["public.t"]` and the
table `public.t` in `dump.transformation`, `Validate.getTablesToValidate` returns the
error that the table `t.public` is not found, because the call site takes the results
of `parseTableName` in the other order; the item `"t.public"` is the one that resolves
to the table `public.t`. -/
theorem getTablesToValidate_swaps_schema_and_name :
    parseTableName "public.t" = .ok ("t", "public") ∧
    Validate.getTablesToValidate (sampleTablesConfig ["public.t"]) =
      .error (.text ("unable to find table from \"validate_table\" parameter: " ++
        "table t.public is not found in transformation config")) ∧
    Validate.getTablesToValidate (sampleTablesConfig ["t.public"]) =
      .ok [⟨"public", "t", []⟩] := by
  exact ⟨rfl, rfl, rfl⟩

theorem stringsSplit_go_last (sep : Char) (ys cur : List Char) (h : sep ∉ ys) :
    stringsSplit.go sep ys cur = [String.mk (cur.reverse ++ ys)] := by
  induction ys generalizing cur with
  | nil => simp [stringsSplit.go]
  | cons c rest ih =>
    have hc : c ≠ sep := fun hc => h (hc ▸ List.mem_cons_self _ _)
    have hrest : sep ∉ rest := fun hr => h (List.mem_cons_of_mem _ hr)
    simp [stringsSplit.go, hc, ih (c :: cur) hrest]

theorem stringsSplit_go_sep (sep : Char) (xs ys cur : List Char) (h : sep ∉ xs) :
    stringsSplit.go sep (xs ++ sep :: ys) cur =
      String.mk (cur.reverse ++ xs) :: stringsSplit.go sep ys [] := by
  induction xs generalizing cur with
  | nil => simp [stringsSplit.go]
  | cons c rest ih =>
    have hc : c ≠ sep := fun hc => h (hc ▸ List.mem_cons_self _ _)
    have hrest : sep ∉ rest := fun hr => h (List.mem_cons_of_mem _ hr)
    simp [stringsSplit.go, hc, ih (c :: cur) hrest]

/-- On an item `schema.name` with exactly one dot `parseTableName` returns the pair
(name, schema), the table name first. -/
theorem parseTableName_qualified (schema name : String)
    (hs : '.' ∉ schema.data) (hn : '.' ∉ name.data) :
    parseTableName (schema ++ "." ++ name) = .ok (name, schema) := by
  have hsplit : stringsSplit (schema ++ "." ++ name) '.' = [schema, name] := by
    unfold stringsSplit
    have hd : (schema ++ "." ++ name).data = schema.data ++ '.' :: name.data := by
      simp [String.data_append]
    rw [hd, stringsSplit_go_sep '.' _ _ _ hs, stringsSplit_go_last '.' _ _ hn]
    simp
  simp [parseTableName, hsplit]

/-- For a single item `schema.name`, `getTablesToValidate` looks the table up with the
two names exchanged: schema `name`, table name `schema`. -/
theorem getTablesToValidate_single_item (config : Config) (schema name : String)
    (htables : config.Validate.Tables = [schema ++ "." ++ name])
    (hs : '.' ∉ schema.data) (hn : '.' ∉ name.data) :
    Validate.getTablesToValidate config =
      (findTableBySchemaAndName config.Transformation name schema).map (fun t => [t]) := by
  unfold Validate.getTablesToValidate
  rw [htables]
  simp only [Validate.getTablesToValidate.loop, parseTableName_qualified schema name hs hn]
  cases findTableBySchemaAndName config.Transformation name schema with
  | error e => rfl
  | ok t => simp [Validate.getTablesToValidate.loop, Except.map]

/-! ### C13 -/

theorem findTable_loop_skip (tableName : String) (xs ys : List DomainTable)
    (found : Option DomainTable) (h : ∀ t ∈ xs, t.Name ≠ tableName) :
    findTableBySchemaAndName.loop "" tableName (xs ++ ys) found =
      findTableBySchemaAndName.loop "" tableName ys found := by
  induction xs with
  | nil => rfl
  | cons t rest ih =>
    have ht : t.Name ≠ tableName := h t (List.mem_cons_self _ _)
    simp only [List.cons_append, findTableBySchemaAndName.loop, ht, and_false, if_false]
    exact ih (fun t2 ht2 => h t2 (List.mem_cons_of_mem _ ht2))

/-- C13 (as stated, refuted): the list holds two tables named `t`, the call has an empty
schema name, and `findTableBySchemaAndName` returns a table instead of the error, when
one of the two has an empty Schema: it is an exact match of the first test of the loop. -/
theorem findTableBySchemaAndName_ambiguous_accepted :
    findTableBySchemaAndName [⟨"", "t", []⟩, ⟨"s2", "t", []⟩] "" "t" = .ok ⟨"", "t", []⟩ ∧
    findTableBySchemaAndName [⟨"s1", "t", []⟩, ⟨"", "t", []⟩, ⟨"s3", "t", []⟩] "" "t" =
      .ok ⟨"", "t", []⟩ :=
  ⟨rfl, rfl⟩

/-- C13 (amended): when the transformation list holds two or more tables whose Name
equals `tableName` and the first two of them have a non-empty Schema, the call with an
empty schema name returns the "unable uniqually identify table ... sepcify schema name"
error and no table. -/
theorem findTableBySchemaAndName_rejects_ambiguous (tableName : String)
    (pre mid post : List DomainTable) (t1 t2 : DomainTable)
    (hpre : ∀ t ∈ pre, t.Name ≠ tableName) (hmid : ∀ t ∈ mid, t.Name ≠ tableName)
    (h1 : t1.Name = tableName) (h2 : t2.Name = tableName)
    (hs1 : t1.Schema ≠ "") (hs2 : t2.Schema ≠ "") :
    findTableBySchemaAndName (pre ++ t1 :: (mid ++ t2 :: post)) "" tableName =
      .error (.text ("wrong \"validate_table\" value: unable uniqually identify table \"" ++
        tableName ++ "\": sepcify schema name")) := by
  unfold findTableBySchemaAndName
  rw [findTable_loop_skip tableName pre _ none hpre]
  simp only [findTableBySchemaAndName.loop, h1, hs1, false_and, if_false, true_and, if_true,
    Option.isSome_none, Bool.false_eq_true]
  rw [findTable_loop_skip tableName mid _ _ hmid]
  simp only [findTableBySchemaAndName.loop, h2, hs2, false_and, if_false, true_and, if_true,
    Option.isSome_some]

theorem findTableBySchemaAndName_rejects_ambiguous_witness :
    findTableBySchemaAndName
      ([⟨"public", "u", []⟩] ++ ⟨"s1", "t", []⟩ :: ([] ++ ⟨"s2", "t", []⟩ :: [])) "" "t" =
      .error (.text ("wrong \"validate_table\" value: unable uniqually identify table \"" ++
        "t" ++ "\": sepcify schema name")) :=
  findTableBySchemaAndName_rejects_ambiguous "t" [⟨"public", "u", []⟩] [] []
    ⟨"s1", "t", []⟩ ⟨"s2", "t", []⟩ (by decide) (by decide) rfl rfl (by decide) (by decide)

/-! ### C14 -/

/-- When the stream ends right after an original line, `readRecords` returns the error
"unable to read line" wrapping `io.EOF`, for which `errors.Is(err, io.EOF)` holds. -/
theorem readRecords_unpaired {Row Doc : Type} (ops : DocOps Row Doc) (t : EntriesTable)
    (line : String) (hline : LineIsEndOfData line = false) :
    Validate.readRecords ops ⟨[line], none⟩ t =
      (.error (.wrap "unable to read line" .eof), ⟨[], none⟩) ∧
    (GoError.wrap "unable to read line" .eof).isEOF = true := by
  simp [Validate.readRecords, ReadLine, hline, GoError.isEOF]

/-- The loop of `createDocument` on a stream of pairs of data lines followed by one
unpaired line and the end of the file: the pairs are appended and the loop ends as on a
clean end of stream. -/
theorem createDocument_loop_unpaired {Row Doc : Type} (ops : DocOps Row Doc)
    (t : EntriesTable) (pairs : List (String × String)) (rows : List (Row × Row))
    (last : String) (doc docEnd : Doc) (line fuel : Nat)
    (hdata : ∀ p ∈ pairs, LineIsEndOfData p.1 = false)
    (hlast : LineIsEndOfData last = false)
    (hdec : DecodesTo ops t pairs rows)
    (happ : appendAll ops doc rows = .ok docEnd)
    (hfuel : pairs.length < fuel) :
    Validate.createDocument.loop ops t fuel ⟨pairLines pairs ++ [last], none⟩ doc line =
      .ok docEnd := by
  induction pairs generalizing rows doc line fuel with
  | nil =>
    cases rows with
    | cons r rest => simp [DecodesTo] at hdec
    | nil =>
      cases fuel with
      | zero => simp at hfuel
      | succ f =>
        simp only [appendAll, Except.ok.injEq] at happ
        subst happ
        simp [Validate.createDocument.loop, Validate.readRecords, ReadLine, pairLines,
          hlast, GoError.isEOF]
  | cons p rest ih =>
    obtain ⟨l1, l2⟩ := p
    cases rows with
    | nil => simp [DecodesTo] at hdec
    | cons r rows1 =>
      obtain ⟨r1, r2⟩ := r
      obtain ⟨hd1, hd2, hdrest⟩ := hdec
      cases fuel with
      | zero => simp at hfuel
      | succ f =>
        have hl1 : LineIsEndOfData l1 = false := hdata (l1, l2) (List.mem_cons_self _ _)
        simp only [appendAll] at happ
        cases hap : ops.append doc r1 r2 with
        | error e => simp [hap] at happ
        | ok doc1 =>
          simp only [hap] at happ
          have hrec := ih rows1 doc1 (line + 1) f
            (fun q hq => hdata q (List.mem_cons_of_mem _ hq)) hdrest happ
            (by simpa using hfuel)
          simp only [Validate.createDocument.loop, Validate.readRecords, ReadLine, pairLines,
            List.cons_append, hl1, hd1, hd2, hap, Bool.false_eq_true, if_false]
          exact hrec

/-- C14 (the code at the failing input): on the stream that holds the single line
`1<TAB>a` and then ends, whatever the row decoder and the document operations are,
`Validate.readRecords` returns the non-nil error "unable to read line" (wrapping
`io.EOF`), and `Validate.createDocument` returns the fresh document and no error: the
test `errors.Is(err, io.EOF)` of its loop holds for the wrapped error too. -/
theorem createDocument_swallows_unpaired_line {Row Doc : Type} (ops : DocOps Row Doc)
    (t : EntriesTable) :
    Validate.readRecords ops ⟨["1\ta"], none⟩ t =
      (.error (.wrap "unable to read line" .eof), ⟨[], none⟩) ∧
    Validate.createDocument ops sampleConfig (fun _ => .ok (.ok ⟨["1\ta"], none⟩)) t =
      .ok (ops.newJsonDocument t false false) := by
  have hline : LineIsEndOfData "1\ta" = false := by decide
  refine ⟨(readRecords_unpaired ops t "1\ta" hline).1, ?_⟩
  have hloop := createDocument_loop_unpaired ops t [] [] "1\ta"
    (ops.newJsonDocument t false false) (ops.newJsonDocument t false false) 0 2
    (by simp) hline trivial rfl (by simp)
  simp only [pairLines, List.nil_append] at hloop
  have hdoc : Validate.getDocument ops sampleConfig t =
      .ok (ops.newJsonDocument t false false) := by
    simp [Validate.getDocument, sampleConfig, sampleValidateConfig, JsonFormat]
  simp only [Validate.createDocument, hdoc, Validate.getReader]
  exact hloop

/-! ### C15 -/

/-- For a path that can be opened and whose extension is none of `.json`, `.yaml` and
`.yml`, `ParseTransformerParamsManually` leaves the config as it is, does not run
`setTransformerParams`, and returns an error whose text renders the nil error of
`os.Open`, not the extension. -/
theorem ParseTransformerParamsManually_unsupported (ops : ParseOps) (cfgFilePath f : String)
    (cfg : Config) (hopen : ops.openFile cfgFilePath = .ok f)
    (hjson : pathExt cfgFilePath ≠ ".json") (hyaml : pathExt cfgFilePath ≠ ".yaml")
    (hyml : pathExt cfgFilePath ≠ ".yml") :
    ParseTransformerParamsManually ops cfgFilePath cfg =
      ⟨cfg, some (.text "unsupported file extension \"%!s(<nil>)\""), false⟩ := by
  simp [ParseTransformerParamsManually, hopen, hjson, hyaml, hyml, fmtErrS]

/-- C15 (the code at the failing input): for the path `config.toml`, which can be opened
and has the extension `.toml`, `ParseTransformerParamsManually` returns a non-nil error
and does not run `setTransformerParams`, but the message of the error is
`unsupported file extension "%!s(<nil>)"`: it formats the nil error of `os.Open`, not
the extension, so it differs from `unsupported file extension ".toml"`. -/
theorem ParseTransformerParamsManually_message_omits_extension
    (jsonDecode yamlDecode : String → Except GoError DummyConfig)
    (jsonMarshal : AnyValue → Except GoError ParamsValue) (renderError : GoError → String)
    (content : String) (cfg : Config) :
    pathExt "config.toml" = ".toml" ∧
    ParseTransformerParamsManually
      ⟨fun _ => .ok content, jsonDecode, yamlDecode, jsonMarshal, renderError⟩
      "config.toml" cfg =
      ⟨cfg, some (.text "unsupported file extension \"%!s(<nil>)\""), false⟩ ∧
    "unsupported file extension \"%!s(<nil>)\"" ≠
      "unsupported file extension \"" ++ pathExt "config.toml" ++ "\"" := by
  refine ⟨by decide, ?_, by decide⟩
  exact ParseTransformerParamsManually_unsupported _ "config.toml" content cfg rfl
    (by decide) (by decide) (by decide)

end Greenmask
